import Mathlib

/-
Verification of the Vienna Christmas Market route optimizer
(`src/models/data_structures.py`, `src/models/greedy.py`, `src/models/aco.py`,
`src/main.py`) against its specification.

Modelling conventions (shallow embedding):
* Python `datetime.time` values are modelled as minutes after midnight (`ℕ`);
  the code converts them with `_time_to_minutes` on use.
* Python `float` arithmetic on clock times and travel durations is modelled
  over `ℚ`.  `float('inf')`, produced by `get_travel_time` for a pair missing
  in both directions, is modelled by `Option ℚ` (`none` = infinity) at the
  lookup, and by `WithTop ℚ` where sums of travel times are stored.
* Python `dict` `travel_times` is an association list with `List.lookup`.
* `np.random.choice` draws are abstracted by an oracle: each draw receives a
  natural number from the oracle and picks that index (mod length) of the
  candidate list.  Every run of the Python code corresponds to some oracle,
  so universally quantified theorems over oracles cover all real runs.  The
  score computation (`pheromone ** alpha * heuristic ** beta * urgency **
  gamma`) only shapes the probability weights, never the support of the
  distribution, so `alpha`, `beta`, `gamma` and the pheromone matrix do not
  appear in the abstracted selection; the candidate filter
  (`time_until_close < stay_duration: continue`) is modelled exactly.
* The unbounded `while True` construction loops are modelled with fuel
  `markets.length`: each pass appends a market id not yet visited, so at most
  `markets.length - 1` passes can ever happen and the fuel never runs out.
* `visited` in the Python code is a set that always equals `set(route)`;
  the embedding passes `route` itself for the membership tests.
-/

set_option allowUnsafeReducibility true in
attribute [semireducible] Rat.add Rat.mul Rat.sub Rat.inv Rat.div

/-- `_minutes_to_time` of `greedy.py`/`aco.py` followed by `_time_to_minutes`:
`hours = int(minutes // 60); mins = int(minutes % 60); time(hour=hours % 24,
minute=mins)`, reread as minutes after midnight.  For `0 ≤ m < 1440` this is
`⌊m⌋`; beyond one day it wraps. -/
def minutes_to_time (m : ℚ) : ℤ :=
  (Rat.floor (m / 60) % 24) * 60 + (Rat.floor m - 60 * Rat.floor (m / 60))

/-- `Market` of `data_structures.py`; `opening_time`/`closing_time` are kept
as minutes after midnight.  `name`, coordinates and `description` carry no
behaviour and are dropped. -/
structure Market where
  id : ℤ
  opening_time : ℕ
  closing_time : ℕ
  deriving DecidableEq

/-- `Market.latest_arrival_time`: `datetime.combine(today, closing) -
timedelta(minutes=stay)` projected back to a time of day, in minutes (the
subtraction wraps modulo one day, exactly as `.time()` does). -/
def Market.latest_arrival_time (m : Market) (stay_duration_minutes : ℤ) : ℤ :=
  ((m.closing_time : ℤ) - stay_duration_minutes) % 1440

/-- `Solution` of `data_structures.py`.  `arrival_times` holds the recorded
clock times in minutes. -/
structure Solution where
  route : List ℤ
  arrival_times : List ℤ
  total_markets_visited : ℕ
  total_travel_time : WithTop ℚ
  total_time : WithTop ℚ
  is_feasible : Bool
  day : ℕ
  deriving DecidableEq

/-- `best_solution.day = day` mutation before `solve` returns. -/
def Solution.set_day (s : Solution) (d : ℕ) : Solution :=
  ⟨s.route, s.arrival_times, s.total_markets_visited, s.total_travel_time,
   s.total_time, s.is_feasible, d⟩

/-- `MultiDaySolution` of `data_structures.py`. -/
structure MultiDaySolution where
  daily_solutions : List Solution
  total_markets_visited : ℕ
  unvisited_markets : List ℤ
  deriving DecidableEq

/-- `ProblemInstance` of `data_structures.py`. -/
structure ProblemInstance where
  markets : List Market
  travel_times : List ((ℤ × ℤ) × ℚ)
  num_days : ℕ
  stay_durations : List ℤ
  transfer_buffer : ℤ
  deriving DecidableEq

/-- `ProblemInstance.get_travel_time`: zero for a self pair without lookup,
else the `(from, to)` entry, else the `(to, from)` entry, else `float('inf')`
(modelled as `none`). -/
def ProblemInstance.get_travel_time (p : ProblemInstance) (from_id to_id : ℤ) : Option ℚ :=
  if from_id = to_id then some 0
  else
    match p.travel_times.lookup (from_id, to_id) with
    | some t => some t
    | none => p.travel_times.lookup (to_id, from_id)

/-- `ProblemInstance.get_market_by_id`: first market with the given id. -/
def ProblemInstance.get_market_by_id (p : ProblemInstance) (market_id : ℤ) : Option Market :=
  p.markets.find? (fun m => m.id = market_id)

/-- `get_market_by_id` with a junk default; only applied to ids that occur in
`p.markets` (where the Python code would otherwise crash on `None`). -/
def ProblemInstance.market_by_id (p : ProblemInstance) (market_id : ℤ) : Market :=
  (p.get_market_by_id market_id).getD ⟨0, 0, 0⟩

/-- Travel time as an element of `WithTop ℚ` (`⊤` = `float('inf')`), the form
used in comparisons (`_select_nearest`) and sums. -/
def ProblemInstance.travel_cost (p : ProblemInstance) (from_id to_id : ℤ) : WithTop ℚ :=
  match p.get_travel_time from_id to_id with
  | some t => (t : WithTop ℚ)
  | none => ⊤

/-- `sum(get_travel_time(route[i], route[i+1]) for i in range(len(route)-1))`. -/
def route_travel_sum (p : ProblemInstance) (route : List ℤ) : WithTop ℚ :=
  ((route.zip route.tail).map (fun ab => p.travel_cost ab.1 ab.2)).sum

/-- `GreedyOptimizer` configuration (`greedy.py`). -/
structure GreedyOptimizer where
  problem : ProblemInstance
  heuristic : String
  distance_weight : ℚ
  time_window_weight : ℚ

/-- Python `min(a0 :: rest, key=key)`: running minimum with strict `<`
replacement, so the first minimum wins. -/
def pick_min_by {α β : Type} [LT β] [DecidableRel (fun a b : β => a < b)]
    (key : α → β) (a0 : α) (rest : List α) : α :=
  rest.foldl (fun best x => if key x < key best then x else best) a0

/-- `_select_nearest`: `min(markets, key=travel_time)` over all candidates,
with no feasibility filtering.  Only called on a nonempty list; `none` on `[]`
is dead code. -/
def GreedyOptimizer.select_nearest (g : GreedyOptimizer) (current_id : ℤ)
    (markets : List Market) : Option Market :=
  match markets with
  | [] => none
  | m0 :: rest => some (pick_min_by (fun m => g.problem.travel_cost current_id m.id) m0 rest)

/-- Projected arrival at a candidate: `current_time + stay + travel + buffer`
(`none` when the travel time is `float('inf')`). -/
def GreedyOptimizer.projected_arrival (g : GreedyOptimizer) (current_id : ℤ)
    (m : Market) (current_time : ℚ) (stay_duration : ℤ) : Option ℚ :=
  match g.problem.get_travel_time current_id m.id with
  | none => none
  | some tt => some (current_time + (stay_duration : ℚ) + tt + (g.problem.transfer_buffer : ℚ))

/-- The `arrival <= latest` filter shared by `_select_earliest_closing`,
`_select_time_efficient` and `_select_hybrid` (an infinite projected arrival
never passes). -/
def GreedyOptimizer.feasible_candidates (g : GreedyOptimizer) (current_id : ℤ)
    (markets : List Market) (current_time : ℚ) (stay_duration : ℤ) : List Market :=
  markets.filter (fun m =>
    match g.projected_arrival current_id m current_time stay_duration with
    | none => false
    | some arrival => arrival ≤ ((m.latest_arrival_time stay_duration : ℤ) : ℚ))

/-- `_select_earliest_closing`: feasible candidates only, then `min` by
closing time (first minimum). -/
def GreedyOptimizer.select_earliest_closing (g : GreedyOptimizer) (current_id : ℤ)
    (markets : List Market) (current_time : ℚ) (stay_duration : ℤ) : Option Market :=
  match g.feasible_candidates current_id markets current_time stay_duration with
  | [] => none
  | m0 :: rest => some (pick_min_by (fun m => m.closing_time) m0 rest)

/-- `_select_time_efficient` score: `travel / max(1, closing - arrival)`.
Junk value on infinite travel (such a candidate is filtered out before the
score is used). -/
def GreedyOptimizer.te_score (g : GreedyOptimizer) (current_id : ℤ) (m : Market)
    (current_time : ℚ) (stay_duration : ℤ) : ℚ :=
  match g.problem.get_travel_time current_id m.id with
  | none => 0
  | some tt =>
    tt / max 1 ((m.closing_time : ℚ) -
      (current_time + (stay_duration : ℚ) + tt + (g.problem.transfer_buffer : ℚ)))

/-- `_select_time_efficient`: running best (strict `<`, starting from score
`inf`) over the candidates that pass the `arrival <= latest` test, i.e. the
first score minimum among the feasible candidates. -/
def GreedyOptimizer.select_time_efficient (g : GreedyOptimizer) (current_id : ℤ)
    (markets : List Market) (current_time : ℚ) (stay_duration : ℤ) : Option Market :=
  match g.feasible_candidates current_id markets current_time stay_duration with
  | [] => none
  | m0 :: rest =>
    some (pick_min_by (fun m => g.te_score current_id m current_time stay_duration) m0 rest)

/-- `_select_hybrid` score of candidate `m` against the feasible candidate set
`valid`: `dw * norm_dist + tw * norm_urgency`.  `max_dist` is the largest
travel time among `valid`; `time_windows` is computed with the loop's
`arrival` variable (the current candidate's arrival), exactly as the Python
comprehension captures it.  Projections use `.getD` junk defaults that are
never hit for feasible candidates (their travel and arrival are finite). -/
def GreedyOptimizer.hybrid_score (g : GreedyOptimizer) (current_id : ℤ)
    (valid : List Market) (m : Market) (current_time : ℚ) (stay_duration : ℤ) : ℚ :=
  let travel_of := fun (w : Market) => (g.problem.get_travel_time current_id w.id).getD 0
  let arrival := (g.projected_arrival current_id m current_time stay_duration).getD 0
  let max_dist := match valid.map travel_of with
    | [] => (0 : ℚ)
    | t0 :: ts => ts.foldl max t0
  let norm_dist := travel_of m / max max_dist 1
  let time_until_close := ((m.latest_arrival_time stay_duration : ℤ) : ℚ) - arrival
  let time_windows := valid.map
    (fun w => ((w.latest_arrival_time stay_duration : ℤ) : ℚ) - arrival)
  let max_time := match time_windows with
    | [] => (1 : ℚ)
    | t0 :: ts => ts.foldl max t0
  let norm_urgency := 1 - time_until_close / max max_time 1
  g.distance_weight * norm_dist + g.time_window_weight * norm_urgency

/-- `_select_hybrid`: feasible candidates only, then the running best (strict
`<`, starting from score `inf`), i.e. the first score minimum. -/
def GreedyOptimizer.select_hybrid (g : GreedyOptimizer) (current_id : ℤ)
    (markets : List Market) (current_time : ℚ) (stay_duration : ℤ) : Option Market :=
  match g.feasible_candidates current_id markets current_time stay_duration with
  | [] => none
  | m0 :: rest =>
    some (pick_min_by
      (fun m => g.hybrid_score current_id (m0 :: rest) m current_time stay_duration) m0 rest)

/-- `_select_next_market`: restrict to non-visited, non-excluded markets and
dispatch on the heuristic name; any unrecognized name falls to `hybrid`. -/
def GreedyOptimizer.select_next_market (g : GreedyOptimizer) (current_id : ℤ)
    (visited : List ℤ) (current_time : ℚ) (stay_duration : ℤ)
    (excluded_markets : List ℤ) : Option Market :=
  let available := g.problem.markets.filter
    (fun m => m.id ∉ visited ∧ m.id ∉ excluded_markets)
  if available.isEmpty then none
  else if g.heuristic = "nearest" then g.select_nearest current_id available
  else if g.heuristic = "earliest_closing" then
    g.select_earliest_closing current_id available current_time stay_duration
  else if g.heuristic = "time_efficient" then
    g.select_time_efficient current_id available current_time stay_duration
  else g.select_hybrid current_id available current_time stay_duration

/-- The `while True` body of `GreedyOptimizer._construct_solution`.  A `none`
travel time is `float('inf')`: the updated clock exceeds every (finite)
latest-arrival bound, so the loop breaks, matching the `none` branch. -/
def GreedyOptimizer.construct_loop (g : GreedyOptimizer) (stay_duration : ℤ)
    (excluded_markets : List ℤ) :
    ℕ → List ℤ → List ℤ → ℤ → ℚ → List ℤ × List ℤ
  | 0, route, arrival_times, _, _ => (route, arrival_times)
  | fuel + 1, route, arrival_times, current_id, current_time =>
    match g.select_next_market current_id route current_time stay_duration excluded_markets with
    | none => (route, arrival_times)
    | some next_market =>
      match g.problem.get_travel_time current_id next_market.id with
      | none => (route, arrival_times)
      | some travel_time =>
        let t1 := current_time + (stay_duration : ℚ) + travel_time + (g.problem.transfer_buffer : ℚ)
        if ((next_market.latest_arrival_time stay_duration : ℤ) : ℚ) < t1 then
          (route, arrival_times)
        else
          let t2 := if t1 < (next_market.opening_time : ℚ) then ((next_market.opening_time : ℕ) : ℚ) else t1
          g.construct_loop stay_duration excluded_markets fuel
            (route ++ [next_market.id]) (arrival_times ++ [minutes_to_time t2])
            next_market.id t2

/-- `GreedyOptimizer._construct_solution`: start the clock at the start
market's opening time and extend greedily; the result is always flagged
feasible. -/
def GreedyOptimizer.construct_solution (g : GreedyOptimizer) (start_market : Market)
    (stay_duration : ℤ) (excluded_markets : List ℤ) : Solution :=
  let t0 : ℚ := (start_market.opening_time : ℚ)
  let ra := g.construct_loop stay_duration excluded_markets g.problem.markets.length
    [start_market.id] [minutes_to_time t0] start_market.id t0
  ⟨ra.1, ra.2, ra.1.length, route_travel_sum g.problem ra.1,
   route_travel_sum g.problem ra.1 + (((ra.1.length : ℚ) * (stay_duration : ℚ) : ℚ) : WithTop ℚ),
   true, 1⟩

/-- The strict-improvement update shared by both engines: keep the incumbent
unless the challenger's visited count is strictly greater (`>` in the
source), so the first-found maximum survives ties. -/
def pick_better (best : Option Solution) (s : Solution) : Option Solution :=
  match best with
  | none => some s
  | some b =>
    if b.total_markets_visited < s.total_markets_visited then some s else some b

/-- The body of the multi-start loop of `GreedyOptimizer.solve`: construct
from this start and keep it only on strict improvement (and only if
feasible). -/
def GreedyOptimizer.solve_step (g : GreedyOptimizer) (stay_duration : ℤ)
    (excluded_markets : List ℤ) (best : Option Solution) (start_market : Market) :
    Option Solution :=
  let solution := g.construct_solution start_market stay_duration excluded_markets
  if solution.is_feasible then
    match best with
    | none => some solution
    | some b =>
      if b.total_markets_visited < solution.total_markets_visited then some solution
      else some b
  else best

/-- `GreedyOptimizer.solve`: multi-start over all non-excluded markets,
keeping the first strict improvement in visited count; day stamped on the
winner, explicit infeasible empty solution when there is no start. -/
def GreedyOptimizer.solve (g : GreedyOptimizer) (day : ℕ) (excluded_markets : List ℤ) : Solution :=
  let stay_duration := g.problem.stay_durations.getD (day - 1) 0
  let available_starts := g.problem.markets.filter (fun m => m.id ∉ excluded_markets)
  let best := available_starts.foldl (g.solve_step stay_duration excluded_markets) none
  match best with
  | some b => b.set_day day
  | none => ⟨[], [], 0, 0, 0, false, day⟩

/-- `AntColonyOptimizer` configuration (`aco.py`).  `alpha`, `beta`, `gamma`
and `random_seed` shape only the probability weights or the seeded stream and
are absorbed by the draw oracle (see the header comment). -/
structure AntColonyOptimizer where
  problem : ProblemInstance
  num_ants : ℕ
  num_iterations : ℕ
  evaporation : ℚ
  pheromone_init : ℚ
  Q : ℚ
  use_elite : Bool
  elite_weight : ℚ

/-- Mutable optimizer state (`self.pheromones`, `self.best_solution`,
`self.convergence_history`), threaded explicitly. -/
structure AcoState where
  pheromones : List (List ℚ)
  best_solution : Option Solution
  convergence_history : List ℕ
  deriving DecidableEq

/-- `np.ones((n, n)) * pheromone_init` plus the empty tracking state. -/
def AntColonyOptimizer.initial_state (a : AntColonyOptimizer) : AcoState :=
  ⟨List.replicate a.problem.markets.length
     (List.replicate a.problem.markets.length a.pheromone_init), none, []⟩

/-- `_get_market_index`: linear scan for the id, `0` when absent. -/
def ProblemInstance.get_market_index (p : ProblemInstance) (market_id : ℤ) : ℕ :=
  match p.markets.findIdx? (fun m => m.id = market_id) with
  | some i => i
  | none => 0

/-- Apply `f` to the element at position `n` (no-op out of range), modelling an
in-place indexed update of a numpy array. -/
def set_at {α : Type} : List α → ℕ → (α → α) → List α
  | [], _, _ => []
  | a :: l, 0, f => f a :: l
  | a :: l, n + 1, f => a :: set_at l n f

/-- Read entry `(i, j)` of the pheromone matrix (`0` out of range). -/
def matrix_entry (m : List (List ℚ)) (i j : ℕ) : ℚ :=
  (m.getD i []).getD j 0

/-- `pheromones[i, j] += d`. -/
def add_entry (m : List (List ℚ)) (i j : ℕ) (d : ℚ) : List (List ℚ) :=
  set_at m i (fun row => set_at row j (fun x => x + d))

/-- `self.pheromones *= (1 - self.evaporation)`. -/
def evaporate_matrix (evaporation : ℚ) (pheromones : List (List ℚ)) : List (List ℚ) :=
  pheromones.map (fun row => row.map (fun x => x * (1 - evaporation)))

/-- Deposit `d` on every directed edge of `route`. -/
def deposit_route (p : ProblemInstance) (pheromones : List (List ℚ))
    (route : List ℤ) (d : ℚ) : List (List ℚ) :=
  (route.zip route.tail).foldl (fun acc ab =>
    add_entry acc (p.get_market_index ab.1) (p.get_market_index ab.2) d) pheromones

/-- The per-ant deposit loop of `_update_pheromones`: skip infeasible or
short routes, else deposit `Q * visited / len(markets)` on each edge. -/
def AntColonyOptimizer.deposit_ants (a : AntColonyOptimizer)
    (pheromones : List (List ℚ)) (solutions : List Solution) : List (List ℚ) :=
  solutions.foldl (fun acc s =>
    if s.is_feasible ∧ 2 ≤ s.route.length then
      deposit_route a.problem acc s.route
        (a.Q * (s.total_markets_visited : ℚ) / (a.problem.markets.length : ℚ))
    else acc) pheromones

/-- The elite-ant branch of `_update_pheromones`. -/
def AntColonyOptimizer.deposit_elite (a : AntColonyOptimizer)
    (pheromones : List (List ℚ)) (best : Option Solution) : List (List ℚ) :=
  match best with
  | some b =>
    if a.use_elite ∧ 1 < b.route.length then
      deposit_route a.problem pheromones b.route
        (a.Q * (b.total_markets_visited : ℚ) * a.elite_weight / (a.problem.markets.length : ℚ))
    else pheromones
  | none => pheromones

/-- `_update_pheromones`: evaporation first, then per-ant deposits, then the
elite deposit. -/
def AntColonyOptimizer.update_pheromones (a : AntColonyOptimizer)
    (pheromones : List (List ℚ)) (solutions : List Solution)
    (best : Option Solution) : List (List ℚ) :=
  a.deposit_elite (a.deposit_ants (evaporate_matrix a.evaporation pheromones) solutions) best

/-- `AntColonyOptimizer._select_next_market` with the weighted draw abstracted:
the candidate list keeps exactly the non-visited, non-excluded markets that
pass `time_until_close >= stay_duration` (with `distance` bumped to `0.01`
when the raw travel time is `0`, and infinite travel excluded); the oracle
value `draw` picks one of them. -/
def AntColonyOptimizer.candidate_ids (a : AntColonyOptimizer) (current_id : ℤ)
    (visited : List ℤ) (current_time : ℚ) (stay_duration : ℤ)
    (excluded_markets : List ℤ) : List ℤ :=
  (a.problem.markets.filter
    (fun m => m.id ∉ visited ∧ m.id ∉ excluded_markets)).filterMap (fun market =>
    match a.problem.get_travel_time current_id market.id with
    | none => none
    | some d0 =>
      let distance := if d0 = 0 then (1 / 100 : ℚ) else d0
      let time_after_travel :=
        current_time + (stay_duration : ℚ) + distance + (a.problem.transfer_buffer : ℚ)
      let time_until_close := ((market.closing_time : ℕ) : ℚ) - time_after_travel
      if time_until_close < (stay_duration : ℚ) then none else some market.id)

/-- The selection itself: `none` when no candidate survives the filter, else
the oracle-indexed candidate. -/
def AntColonyOptimizer.select_next_market (a : AntColonyOptimizer) (current_id : ℤ)
    (visited : List ℤ) (current_time : ℚ) (stay_duration : ℤ)
    (excluded_markets : List ℤ) (draw : ℕ) : Option ℤ :=
  match a.candidate_ids current_id visited current_time stay_duration excluded_markets with
  | [] => none
  | c0 :: rest => some ((c0 :: rest).getD (draw % (c0 :: rest).length) 0)

/-- The `while True` body of `AntColonyOptimizer._construct_solution`; `k`
counts the oracle draws already consumed. -/
def AntColonyOptimizer.construct_loop (a : AntColonyOptimizer) (stay_duration : ℤ)
    (excluded_markets : List ℤ) (oracle : ℕ → ℕ) :
    ℕ → ℕ → List ℤ → List ℤ → ℤ → ℚ → List ℤ × List ℤ
  | 0, _, route, arrival_times, _, _ => (route, arrival_times)
  | fuel + 1, k, route, arrival_times, current_id, current_time =>
    match a.select_next_market current_id route current_time stay_duration
        excluded_markets (oracle k) with
    | none => (route, arrival_times)
    | some next_id =>
      match a.problem.get_travel_time current_id next_id with
      | none => (route, arrival_times)
      | some travel_time =>
        let t1 := current_time + (stay_duration : ℚ) + travel_time + (a.problem.transfer_buffer : ℚ)
        let next_market := a.problem.market_by_id next_id
        if ((next_market.latest_arrival_time stay_duration : ℤ) : ℚ) < t1 then
          (route, arrival_times)
        else
          let t2 := if t1 < (next_market.opening_time : ℚ) then ((next_market.opening_time : ℕ) : ℚ) else t1
          a.construct_loop stay_duration excluded_markets oracle fuel (k + 1)
            (route ++ [next_id]) (arrival_times ++ [minutes_to_time t2]) next_id t2

/-- `AntColonyOptimizer._construct_solution`: infeasible empty solution when
every market is excluded, else start at the oracle-chosen available market at
its opening time and extend; always flagged feasible. -/
def AntColonyOptimizer.construct_solution (a : AntColonyOptimizer) (stay_duration : ℤ)
    (excluded_markets : List ℤ) (oracle : ℕ → ℕ) : Solution :=
  let available_markets :=
    (a.problem.markets.filter (fun m => m.id ∉ excluded_markets)).map Market.id
  match available_markets with
  | [] => ⟨[], [], 0, 0, 0, false, 1⟩
  | _ :: _ =>
    let current_id := available_markets.getD (oracle 0 % available_markets.length) 0
    let current_market := a.problem.market_by_id current_id
    let t0 : ℚ := (current_market.opening_time : ℚ)
    let ra := a.construct_loop stay_duration excluded_markets oracle
      a.problem.markets.length 1 [current_id] [minutes_to_time t0] current_id t0
    ⟨ra.1, ra.2, ra.1.length, route_travel_sum a.problem ra.1,
     route_travel_sum a.problem ra.1 + (((ra.1.length : ℚ) * (stay_duration : ℚ) : ℚ) : WithTop ℚ),
     true, 1⟩

/-- Python `max(feasible_solutions, key=visited)`: first maximum wins. -/
def pick_first_max (s0 : Solution) (rest : List Solution) : Solution :=
  rest.foldl (fun b s =>
    if b.total_markets_visited < s.total_markets_visited then s else b) s0

/-- One iteration of `AntColonyOptimizer.solve`: all ants construct, the
running best is updated on strict improvement, the convergence history is
appended, and the pheromones are updated (with the already-updated best as
the elite route). -/
def AntColonyOptimizer.run_iteration (a : AntColonyOptimizer) (stay_duration : ℤ)
    (excluded_markets : List ℤ) (iter_oracle : ℕ → ℕ → ℕ) (st : AcoState) : AcoState :=
  let solutions := (List.range a.num_ants).map (fun ant =>
    a.construct_solution stay_duration excluded_markets (iter_oracle ant))
  let feasible_solutions := solutions.filter (fun s => s.is_feasible)
  let best' := match feasible_solutions with
    | [] => st.best_solution
    | f0 :: fs =>
      let iteration_best := pick_first_max f0 fs
      match st.best_solution with
      | none => some iteration_best
      | some b =>
        if b.total_markets_visited < iteration_best.total_markets_visited then
          some iteration_best
        else some b
  let hist := st.convergence_history ++
    [match best' with | some b => b.total_markets_visited | none => 0]
  ⟨a.update_pheromones st.pheromones solutions best', best', hist⟩

/-- The iteration loop of `AntColonyOptimizer.solve`. -/
def AntColonyOptimizer.run_all (a : AntColonyOptimizer) (stay_duration : ℤ)
    (excluded_markets : List ℤ) (oracle : ℕ → ℕ → ℕ → ℕ) : AcoState :=
  (List.range a.num_iterations).foldl (fun st iter =>
    a.run_iteration stay_duration excluded_markets (oracle iter) st) a.initial_state

/-- `AntColonyOptimizer.solve`: the final running best with the day stamped,
or an explicit infeasible empty solution when no ant ever found one. -/
def AntColonyOptimizer.solve (a : AntColonyOptimizer) (oracle : ℕ → ℕ → ℕ → ℕ)
    (day : ℕ) (excluded_markets : List ℤ) : Solution :=
  let stay_duration := a.problem.stay_durations.getD (day - 1) 0
  let final := a.run_all stay_duration excluded_markets oracle
  match final.best_solution with
  | some b => b.set_day day
  | none => ⟨[], [], 0, 0, 0, false, day⟩

/-- The day loop of `main.py` (`main`, lines 126-147 and 181-189): run the
engine for days `1..num_days`, extending the exclusion list with each day's
route, then aggregate the total and the unvisited ids. -/
def run_days (p : ProblemInstance) (engine : ℕ → List ℤ → Solution) : MultiDaySolution :=
  let acc := (List.range p.num_days).foldl (fun (acc : List Solution × List ℤ) d =>
    let solution := engine (d + 1) acc.2
    (acc.1 ++ [solution], acc.2 ++ solution.route)) ([], [])
  ⟨acc.1, (acc.1.map (fun s => s.total_markets_visited)).sum,
   (p.markets.filter (fun m => m.id ∉ acc.2)).map Market.id⟩

/-- The window condition the spec asserts for a visited stop: some market of
the instance carries this id and the recorded arrival lies between its
opening time and its closing time minus the stay. -/
def in_window (p : ProblemInstance) (stay_duration : ℤ) (market_id arrival : ℤ) : Prop :=
  ∃ m ∈ p.markets, m.id = market_id ∧
    (m.opening_time : ℤ) ≤ arrival ∧ arrival ≤ (m.closing_time : ℤ) - stay_duration

/-- Route validity of a returned solution: no duplicate ids, and the arrival
recorded for every visited stop lies in that stop's window. -/
def route_ok (p : ProblemInstance) (stay_duration : ℤ) (s : Solution) : Prop :=
  s.route.Nodup ∧ List.Forall₂ (in_window p stay_duration) s.route s.arrival_times

/-- Every market's window is long enough for the stay and its closing time is
a valid time of day (no midnight wrap in the latest-arrival arithmetic). -/
def windows_fit (p : ProblemInstance) (stay_duration : ℤ) : Prop :=
  ∀ m ∈ p.markets,
    (m.closing_time : ℤ) < 1440 ∧ (m.opening_time : ℤ) + stay_duration ≤ (m.closing_time : ℤ)

instance (p : ProblemInstance) (stay_duration market_id arrival : ℤ) :
    Decidable (in_window p stay_duration market_id arrival) :=
  inferInstanceAs (Decidable (∃ m ∈ p.markets, m.id = market_id ∧
    (m.opening_time : ℤ) ≤ arrival ∧ arrival ≤ (m.closing_time : ℤ) - stay_duration))

instance (p : ProblemInstance) (stay_duration : ℤ) :
    Decidable (windows_fit p stay_duration) :=
  inferInstanceAs (Decidable (∀ m ∈ p.markets,
    (m.closing_time : ℤ) < 1440 ∧ (m.opening_time : ℤ) + stay_duration ≤ (m.closing_time : ℤ)))

/-- Shape predicate for the pheromone matrix: `n` rows of length `n`. -/
def matrix_shape (m : List (List ℚ)) (n : ℕ) : Prop :=
  m.length = n ∧ ∀ row ∈ m, row.length = n

/-- All entries of the pheromone matrix are non-negative. -/
def matrix_nonneg (m : List (List ℚ)) : Prop :=
  ∀ row ∈ m, ∀ x ∈ row, 0 ≤ x

instance (m : List (List ℚ)) (n : ℕ) : Decidable (matrix_shape m n) :=
  inferInstanceAs (Decidable (m.length = n ∧ ∀ row ∈ m, row.length = n))

instance (m : List (List ℚ)) : Decidable (matrix_nonneg m) :=
  inferInstanceAs (Decidable (∀ row ∈ m, ∀ x ∈ row, 0 ≤ x))

/-- Directed edges of a route, as pheromone-matrix index pairs. -/
def edge_pairs (p : ProblemInstance) (route : List ℤ) : List (ℕ × ℕ) :=
  (route.zip route.tail).map (fun ab => (p.get_market_index ab.1, p.get_market_index ab.2))

/-- Total deposit the ant solutions of one update contribute to entry
`(i, j)`: `Q * visited / n` per traversal of that edge by a feasible route
with at least two stops. -/
def ant_deposit_sum (a : AntColonyOptimizer) (solutions : List Solution) (i j : ℕ) : ℚ :=
  ((solutions.filter (fun s => s.is_feasible ∧ 2 ≤ s.route.length)).map (fun s =>
    (a.Q * (s.total_markets_visited : ℚ) / (a.problem.markets.length : ℚ)) *
      ((edge_pairs a.problem s.route).count (i, j) : ℚ))).sum

/-- Deposit the elite branch contributes to entry `(i, j)`. -/
def elite_deposit_sum (a : AntColonyOptimizer) (best : Option Solution) (i j : ℕ) : ℚ :=
  match best with
  | some b =>
    if a.use_elite ∧ 1 < b.route.length then
      (a.Q * (b.total_markets_visited : ℚ) * a.elite_weight / (a.problem.markets.length : ℚ)) *
        ((edge_pairs a.problem b.route).count (i, j) : ℚ)
    else 0
  | none => 0

/-- One market whose window (10 minutes) is shorter than the stay
(30 minutes): `opening = 600`, `closing = 610`. -/
def tight_window_problem : ProblemInstance :=
  ⟨[⟨1, 600, 610⟩], [], 1, [30], 0⟩

/-- The concrete scenario of spec section 8: A(10:00-22:00), B(10:00-10:40),
C(10:00-20:00), travel A-B = 5, A-C = 20, stay 30, buffer 0. -/
def scenario_problem : ProblemInstance :=
  ⟨[⟨1, 600, 1320⟩, ⟨2, 600, 640⟩, ⟨3, 600, 1200⟩],
   [((1, 2), 5), ((1, 3), 20)], 1, [30], 0⟩


/-- The per-start constructed solutions of `GreedyOptimizer.solve`, in the
order the multi-start loop visits them. -/
def greedy_start_solutions (g : GreedyOptimizer) (day : ℕ) (ex : List ℤ) : List Solution :=
  (g.problem.markets.filter (fun m => m.id ∉ ex)).map
    (fun sm => g.construct_solution sm (g.problem.stay_durations.getD (day - 1) 0) ex)

/-- The feasible ant solutions of one ACO iteration, in ant order. -/
def aco_iteration_feasible (a : AntColonyOptimizer) (stay : ℤ) (ex : List ℤ)
    (iter_oracle : ℕ → ℕ → ℕ) : List Solution :=
  ((List.range a.num_ants).map (fun ant =>
    a.construct_solution stay ex (iter_oracle ant))).filter (fun s => s.is_feasible)

theorem foldl_pick_mem {α : Type} (f : α → α → α) (hsel : ∀ b x, f b x = b ∨ f b x = x) :
    ∀ (l : List α) (a : α), l.foldl f a ∈ a :: l := by
  intro l
  induction l with
  | nil => intro a; exact List.mem_cons_self a []
  | cons x xs ih =>
    intro a
    rw [List.foldl_cons]
    rcases List.mem_cons.mp (ih (f a x)) with h2 | h2
    · rcases hsel a x with h1 | h1
      · rw [h2, h1]; exact List.mem_cons_self a (x :: xs)
      · rw [h2, h1]; exact List.mem_cons_of_mem a (List.mem_cons_self x xs)
    · exact List.mem_cons_of_mem a (List.mem_cons_of_mem x h2)

theorem pick_min_by_mem {α β : Type} [LT β] [DecidableRel (fun a b : β => a < b)]
    (key : α → β) (a0 : α) (rest : List α) : pick_min_by key a0 rest ∈ a0 :: rest :=
  foldl_pick_mem _ (fun b x => Or.symm (ite_eq_or_eq _ x b)) rest a0

theorem select_nearest_mem (g : GreedyOptimizer) (cur : ℤ) (ms : List Market) (m : Market)
    (h : g.select_nearest cur ms = some m) : m ∈ ms := by
  cases ms with
  | nil => simp [GreedyOptimizer.select_nearest] at h
  | cons m0 rest =>
    simp only [GreedyOptimizer.select_nearest, Option.some.injEq] at h
    have := pick_min_by_mem (fun m => g.problem.travel_cost cur m.id) m0 rest
    rw [h] at this
    exact this

theorem feasible_candidates_sublist (g : GreedyOptimizer) (cur : ℤ) (ms : List Market)
    (t : ℚ) (stay : ℤ) (m : Market)
    (h : m ∈ g.feasible_candidates cur ms t stay) : m ∈ ms :=
  (List.mem_filter.mp h).1

theorem select_earliest_closing_mem (g : GreedyOptimizer) (cur : ℤ) (ms : List Market)
    (t : ℚ) (stay : ℤ) (m : Market)
    (h : g.select_earliest_closing cur ms t stay = some m) : m ∈ ms := by
  rw [GreedyOptimizer.select_earliest_closing] at h
  cases hv : g.feasible_candidates cur ms t stay with
  | nil => rw [hv] at h; exact absurd h (by simp)
  | cons m0 rest =>
    rw [hv] at h
    simp only [Option.some.injEq] at h
    have := pick_min_by_mem (fun m : Market => m.closing_time) m0 rest
    rw [h, ← hv] at this
    exact feasible_candidates_sublist g cur ms t stay m this

theorem select_time_efficient_mem (g : GreedyOptimizer) (cur : ℤ) (ms : List Market)
    (t : ℚ) (stay : ℤ) (m : Market)
    (h : g.select_time_efficient cur ms t stay = some m) : m ∈ ms := by
  rw [GreedyOptimizer.select_time_efficient] at h
  cases hv : g.feasible_candidates cur ms t stay with
  | nil => rw [hv] at h; exact absurd h (by simp)
  | cons m0 rest =>
    rw [hv] at h
    simp only [Option.some.injEq] at h
    have := pick_min_by_mem (fun m : Market => g.te_score cur m t stay) m0 rest
    rw [h, ← hv] at this
    exact feasible_candidates_sublist g cur ms t stay m this

theorem select_hybrid_mem (g : GreedyOptimizer) (cur : ℤ) (ms : List Market)
    (t : ℚ) (stay : ℤ) (m : Market)
    (h : g.select_hybrid cur ms t stay = some m) : m ∈ ms := by
  rw [GreedyOptimizer.select_hybrid] at h
  cases hv : g.feasible_candidates cur ms t stay with
  | nil => rw [hv] at h; exact absurd h (by simp)
  | cons m0 rest =>
    rw [hv] at h
    simp only [Option.some.injEq] at h
    have := pick_min_by_mem
      (fun m : Market => g.hybrid_score cur (m0 :: rest) m t stay) m0 rest
    rw [h, ← hv] at this
    exact feasible_candidates_sublist g cur ms t stay m this

theorem select_next_market_spec (g : GreedyOptimizer) (cur : ℤ) (visited : List ℤ)
    (t : ℚ) (stay : ℤ) (ex : List ℤ) (m : Market)
    (h : g.select_next_market cur visited t stay ex = some m) :
    m ∈ g.problem.markets ∧ m.id ∉ visited ∧ m.id ∉ ex := by
  rw [GreedyOptimizer.select_next_market] at h
  have havail : m ∈ g.problem.markets.filter (fun m => m.id ∉ visited ∧ m.id ∉ ex) := by
    split at h
    · exact absurd h (by simp)
    · split at h
      · exact select_nearest_mem g cur _ m h
      · split at h
        · exact select_earliest_closing_mem g cur _ t stay m h
        · split at h
          · exact select_time_efficient_mem g cur _ t stay m h
          · exact select_hybrid_mem g cur _ t stay m h
  have hmf := List.mem_filter.mp havail
  refine ⟨hmf.1, ?_⟩
  have h2 := hmf.2
  simp only [decide_eq_true_eq] at h2
  exact h2

/-- C6: `get_travel_time(a, a)` is `0` whatever the table holds; for `a ≠ b`
the `(a, b)` entry is returned when present, otherwise the `(b, a)` entry,
otherwise infinity (`none`), in which case any feasibility comparison
`t + travel ≤ bound` fails, so the edge is always infeasible. -/
theorem C6_get_travel_time_lookup (p : ProblemInstance) (a b : ℤ) (t : ℚ) (hab : a ≠ b) :
    (p.get_travel_time a a = some 0) ∧
    (p.travel_times.lookup (a, b) = some t → p.get_travel_time a b = some t) ∧
    (p.travel_times.lookup (a, b) = none →
      p.get_travel_time a b = p.travel_times.lookup (b, a)) ∧
    (p.travel_times.lookup (a, b) = none → p.travel_times.lookup (b, a) = none →
      p.get_travel_time a b = none ∧
      ∀ x y : ℚ, ¬ ((x : WithTop ℚ) + p.travel_cost a b ≤ (y : WithTop ℚ))) := by
  refine ⟨by simp [ProblemInstance.get_travel_time], ?_, ?_, ?_⟩
  · intro hl
    simp [ProblemInstance.get_travel_time, hab, hl]
  · intro hl
    simp [ProblemInstance.get_travel_time, hab, hl]
  · intro hl hl'
    have hg : p.get_travel_time a b = none := by
      simp [ProblemInstance.get_travel_time, hab, hl, hl']
    refine ⟨hg, ?_⟩
    intro x y hle
    rw [ProblemInstance.travel_cost, hg] at hle
    rw [WithTop.add_top] at hle
    exact WithTop.not_top_le_coe y hle

/-- Witness for C6 at the concrete scenario instance, ids 2 and 3. -/
theorem C6_get_travel_time_lookup_witness :
    (2 : ℤ) ≠ 3 ∧
    ((scenario_problem.get_travel_time 2 2 = some 0) ∧
     (scenario_problem.travel_times.lookup (2, 3) = some 0 →
       scenario_problem.get_travel_time 2 3 = some 0) ∧
     (scenario_problem.travel_times.lookup (2, 3) = none →
       scenario_problem.get_travel_time 2 3 = scenario_problem.travel_times.lookup (3, 2)) ∧
     (scenario_problem.travel_times.lookup (2, 3) = none →
       scenario_problem.travel_times.lookup (3, 2) = none →
       scenario_problem.get_travel_time 2 3 = none ∧
       ∀ x y : ℚ, ¬ ((x : WithTop ℚ) + scenario_problem.travel_cost 2 3 ≤ (y : WithTop ℚ)))) :=
  ⟨by decide, C6_get_travel_time_lookup scenario_problem 2 3 0 (by decide)⟩

theorem select_next_market_fallback (p : ProblemInstance) (heu : String) (dw tw : ℚ)
    (h1 : heu ≠ "nearest") (h2 : heu ≠ "earliest_closing") (h3 : heu ≠ "time_efficient")
    (cur : ℤ) (visited : List ℤ) (t : ℚ) (stay : ℤ) (ex : List ℤ) :
    GreedyOptimizer.select_next_market ⟨p, heu, dw, tw⟩ cur visited t stay ex =
      GreedyOptimizer.select_next_market ⟨p, "hybrid", dw, tw⟩ cur visited t stay ex := by
  simp [GreedyOptimizer.select_next_market, h1, h2, h3]
  rfl

theorem construct_loop_fallback (p : ProblemInstance) (heu : String) (dw tw : ℚ)
    (h1 : heu ≠ "nearest") (h2 : heu ≠ "earliest_closing") (h3 : heu ≠ "time_efficient")
    (stay : ℤ) (ex : List ℤ) :
    ∀ (fuel : ℕ) (route arr : List ℤ) (cur : ℤ) (t : ℚ),
      GreedyOptimizer.construct_loop ⟨p, heu, dw, tw⟩ stay ex fuel route arr cur t =
        GreedyOptimizer.construct_loop ⟨p, "hybrid", dw, tw⟩ stay ex fuel route arr cur t := by
  intro fuel
  induction fuel with
  | zero => intro route arr cur t; rfl
  | succ n ih =>
    intro route arr cur t
    simp only [GreedyOptimizer.construct_loop]
    rw [select_next_market_fallback p heu dw tw h1 h2 h3]
    cases hsel : GreedyOptimizer.select_next_market ⟨p, "hybrid", dw, tw⟩ cur route t stay ex with
    | none => rfl
    | some m =>
      dsimp only
      cases htt : p.get_travel_time cur m.id with
      | none => rfl
      | some tt =>
        dsimp only
        split
        · rfl
        · exact ih _ _ _ _

theorem construct_solution_fallback (p : ProblemInstance) (heu : String) (dw tw : ℚ)
    (h1 : heu ≠ "nearest") (h2 : heu ≠ "earliest_closing") (h3 : heu ≠ "time_efficient")
    (sm : Market) (stay : ℤ) (ex : List ℤ) :
    GreedyOptimizer.construct_solution ⟨p, heu, dw, tw⟩ sm stay ex =
      GreedyOptimizer.construct_solution ⟨p, "hybrid", dw, tw⟩ sm stay ex := by
  simp only [GreedyOptimizer.construct_solution]
  rw [construct_loop_fallback p heu dw tw h1 h2 h3]

/-- C9: a `GreedyOptimizer` configured with any policy name other than
`nearest`, `earliest_closing` or `time_efficient` solves identically to one
configured with `hybrid`, on the same problem, day and exclusion set (a total
function: no error is raised). -/
theorem C9_unrecognized_policy_hybrid (p : ProblemInstance) (heu : String) (dw tw : ℚ)
    (day : ℕ) (ex : List ℤ)
    (h1 : heu ≠ "nearest") (h2 : heu ≠ "earliest_closing") (h3 : heu ≠ "time_efficient") :
    GreedyOptimizer.solve ⟨p, heu, dw, tw⟩ day ex =
      GreedyOptimizer.solve ⟨p, "hybrid", dw, tw⟩ day ex := by
  have hss : GreedyOptimizer.solve_step ⟨p, heu, dw, tw⟩ =
      GreedyOptimizer.solve_step ⟨p, "hybrid", dw, tw⟩ := by
    funext stay ex b sm
    simp only [GreedyOptimizer.solve_step,
      construct_solution_fallback p heu dw tw h1 h2 h3]
  simp only [GreedyOptimizer.solve, hss]

/-- Witness for C9: the policy name `wander` behaves as `hybrid` on the
scenario instance. -/
theorem C9_unrecognized_policy_hybrid_witness :
    ("wander" ≠ "nearest" ∧ "wander" ≠ "earliest_closing" ∧ "wander" ≠ "time_efficient") ∧
    GreedyOptimizer.solve ⟨scenario_problem, "wander", 2/5, 3/5⟩ 1 [] =
      GreedyOptimizer.solve ⟨scenario_problem, "hybrid", 2/5, 3/5⟩ 1 [] :=
  ⟨⟨by decide, by decide, by decide⟩,
   C9_unrecognized_policy_hybrid scenario_problem "wander" (2/5) (3/5) 1 []
     (by decide) (by decide) (by decide)⟩

theorem rat_floor_eq_int_floor (q : ℚ) : Rat.floor q = ⌊q⌋ := by
  rw [Rat.floor_def']
  exact Rat.floor_def.symm

theorem minutes_to_time_eq_floor (m : ℚ) (h0 : 0 ≤ m) (h1 : m < 1440) :
    minutes_to_time m = Rat.floor m := by
  rw [minutes_to_time, rat_floor_eq_int_floor, rat_floor_eq_int_floor]
  have hq0 : (0 : ℚ) ≤ m / 60 := by positivity
  have hq1 : m / 60 < 24 := by
    rw [div_lt_iff (by norm_num : (0:ℚ) < 60)]
    linarith
  have hf0 : (0 : ℤ) ≤ ⌊m / 60⌋ := Int.le_floor.mpr (by exact_mod_cast hq0)
  have hf1 : ⌊m / 60⌋ < 24 := Int.floor_lt.mpr (by exact_mod_cast hq1)
  rw [Int.emod_eq_of_lt hf0 hf1]
  ring

theorem minutes_to_time_natCast (n : ℕ) (h1 : n < 1440) :
    minutes_to_time (n : ℚ) = (n : ℤ) := by
  rw [minutes_to_time_eq_floor (n : ℚ) (by positivity) (by exact_mod_cast h1),
    rat_floor_eq_int_floor]
  exact Int.floor_natCast n

theorem latest_arrival_no_wrap (m : Market) (stay : ℤ) (hstay : 0 ≤ stay)
    (hfit : (m.opening_time : ℤ) + stay ≤ (m.closing_time : ℤ))
    (hclose : (m.closing_time : ℤ) < 1440) :
    m.latest_arrival_time stay = (m.closing_time : ℤ) - stay := by
  rw [Market.latest_arrival_time]
  have hop : (0:ℤ) ≤ (m.opening_time : ℤ) := Int.ofNat_nonneg _
  exact Int.emod_eq_of_lt (by linarith) (by linarith)

theorem forall2_append_single {α β : Type} (R : α → β → Prop) {l1 : List α} {l2 : List β}
    (h : List.Forall₂ R l1 l2) {a : α} {b : β} (hab : R a b) :
    List.Forall₂ R (l1 ++ [a]) (l2 ++ [b]) := by
  induction h with
  | nil => exact List.Forall₂.cons hab List.Forall₂.nil
  | cons h1 _ ih => exact List.Forall₂.cons h1 ih

theorem nodup_append_single {α : Type} [DecidableEq α] {l : List α} {a : α}
    (h : l.Nodup) (ha : a ∉ l) : (l ++ [a]).Nodup := by
  rw [List.nodup_append]
  refine ⟨h, List.nodup_singleton a, ?_⟩
  intro x hx hxa
  rw [List.mem_singleton.mp hxa] at hx
  exact ha hx


theorem step_in_window (p : ProblemInstance) (stay : ℤ) (hstay : 0 ≤ stay)
    (m : Market) (hm : m ∈ p.markets) (hfit : windows_fit p stay)
    (t1 : ℚ) (hle : t1 ≤ ((m.latest_arrival_time stay : ℤ) : ℚ)) :
    in_window p stay m.id
      (minutes_to_time (if t1 < (m.opening_time : ℚ) then ((m.opening_time : ℕ) : ℚ) else t1)) := by
  obtain ⟨hclose, hwin⟩ := hfit m hm
  have hlat : m.latest_arrival_time stay = (m.closing_time : ℤ) - stay :=
    latest_arrival_no_wrap m stay hstay hwin hclose
  rw [hlat] at hle
  push_cast at hle
  have hwinq : ((m.opening_time : ℕ) : ℚ) + (stay : ℚ) ≤ ((m.closing_time : ℕ) : ℚ) := by
    exact_mod_cast hwin
  have hcloseq : ((m.closing_time : ℕ) : ℚ) < 1440 := by exact_mod_cast hclose
  have hstayq : (0 : ℚ) ≤ (stay : ℚ) := by exact_mod_cast hstay
  have hop_le : ((m.opening_time : ℕ) : ℚ) ≤
      (if t1 < (m.opening_time : ℚ) then ((m.opening_time : ℕ) : ℚ) else t1) := by
    split
    · exact le_refl _
    · rename_i hcond
      exact le_of_not_lt hcond
  have ht2_le : (if t1 < (m.opening_time : ℚ) then ((m.opening_time : ℕ) : ℚ) else t1) ≤
      ((m.closing_time : ℕ) : ℚ) - (stay : ℚ) := by
    split
    · linarith
    · exact hle
  have h0 : (0 : ℚ) ≤ (if t1 < (m.opening_time : ℚ) then ((m.opening_time : ℕ) : ℚ) else t1) :=
    le_trans (by positivity) hop_le
  have h1440 : (if t1 < (m.opening_time : ℚ) then ((m.opening_time : ℕ) : ℚ) else t1) < 1440 := by
    linarith
  rw [minutes_to_time_eq_floor _ h0 h1440, rat_floor_eq_int_floor]
  refine ⟨m, hm, rfl, ?_, ?_⟩
  · refine Int.le_floor.mpr ?_
    push_cast
    exact hop_le
  · have hfl : ⌊(if t1 < (m.opening_time : ℚ) then ((m.opening_time : ℕ) : ℚ) else t1)⌋ ≤
        ⌊((m.closing_time : ℕ) : ℚ) - (stay : ℚ)⌋ := Int.floor_mono ht2_le
    have heq : ((m.closing_time : ℕ) : ℚ) - (stay : ℚ) = (((m.closing_time : ℤ) - stay : ℤ) : ℚ) := by
      push_cast
      ring
    rw [heq, Int.floor_intCast] at hfl
    linarith

theorem construct_loop_mem (g : GreedyOptimizer) (stay : ℤ) (ex : List ℤ) :
    ∀ (fuel : ℕ) (route arr : List ℤ) (cur : ℤ) (t : ℚ) (x : ℤ),
      x ∈ (g.construct_loop stay ex fuel route arr cur t).1 →
      x ∈ route ∨ ((∃ m ∈ g.problem.markets, m.id = x) ∧ x ∉ ex) := by
  intro fuel
  induction fuel with
  | zero => intro route arr cur t x hx; exact Or.inl hx
  | succ n ih =>
    intro route arr cur t x hx
    rw [GreedyOptimizer.construct_loop] at hx
    revert hx
    cases hsel : g.select_next_market cur route t stay ex with
    | none => exact fun hx => Or.inl hx
    | some m =>
      dsimp only
      cases htt : g.problem.get_travel_time cur m.id with
      | none => exact fun hx => Or.inl hx
      | some tt =>
        dsimp only
        split
        · exact fun hx => Or.inl hx
        · intro hx
          rcases ih _ _ _ _ x hx with hx2 | hx2
          · rcases List.mem_append.mp hx2 with hx3 | hx3
            · exact Or.inl hx3
            · obtain ⟨hmem, _, hex⟩ := select_next_market_spec g cur route t stay ex m hsel
              have hxm : x = m.id := List.mem_singleton.mp hx3
              exact Or.inr ⟨⟨m, hmem, hxm ▸ rfl⟩, hxm ▸ hex⟩
          · exact Or.inr hx2

theorem construct_loop_head (g : GreedyOptimizer) (stay : ℤ) (ex : List ℤ) :
    ∀ (fuel : ℕ) (route arr : List ℤ) (cur : ℤ) (t : ℚ), route ≠ [] → arr ≠ [] →
      (g.construct_loop stay ex fuel route arr cur t).1.head? = route.head? ∧
      (g.construct_loop stay ex fuel route arr cur t).2.head? = arr.head? := by
  intro fuel
  induction fuel with
  | zero => intro route arr cur t _ _; exact ⟨rfl, rfl⟩
  | succ n ih =>
    intro route arr cur t hr ha
    rw [GreedyOptimizer.construct_loop]
    cases hsel : g.select_next_market cur route t stay ex with
    | none => exact ⟨rfl, rfl⟩
    | some m =>
      dsimp only
      cases htt : g.problem.get_travel_time cur m.id with
      | none => exact ⟨rfl, rfl⟩
      | some tt =>
        dsimp only
        split
        · exact ⟨rfl, rfl⟩
        · obtain ⟨h1, h2⟩ := ih (route ++ [m.id]) (arr ++ [_]) m.id _
            (by simp) (by simp)
          refine ⟨?_, ?_⟩
          · rw [h1, List.head?_append_of_ne_nil _ hr]
          · rw [h2, List.head?_append_of_ne_nil _ ha]

theorem construct_loop_nodup (g : GreedyOptimizer) (stay : ℤ) (ex : List ℤ) :
    ∀ (fuel : ℕ) (route arr : List ℤ) (cur : ℤ) (t : ℚ), route.Nodup →
      (g.construct_loop stay ex fuel route arr cur t).1.Nodup := by
  intro fuel
  induction fuel with
  | zero => intro route arr cur t h; exact h
  | succ n ih =>
    intro route arr cur t h
    rw [GreedyOptimizer.construct_loop]
    cases hsel : g.select_next_market cur route t stay ex with
    | none => exact h
    | some m =>
      dsimp only
      cases htt : g.problem.get_travel_time cur m.id with
      | none => exact h
      | some tt =>
        dsimp only
        split
        · exact h
        · refine ih _ _ _ _ ?_
          obtain ⟨_, hvis, _⟩ := select_next_market_spec g cur route t stay ex m hsel
          exact nodup_append_single h hvis

theorem construct_loop_windows (g : GreedyOptimizer) (stay : ℤ) (ex : List ℤ)
    (hstay : 0 ≤ stay) (hfit : windows_fit g.problem stay) :
    ∀ (fuel : ℕ) (route arr : List ℤ) (cur : ℤ) (t : ℚ),
      List.Forall₂ (in_window g.problem stay) route arr →
      List.Forall₂ (in_window g.problem stay)
        (g.construct_loop stay ex fuel route arr cur t).1
        (g.construct_loop stay ex fuel route arr cur t).2 := by
  intro fuel
  induction fuel with
  | zero => intro route arr cur t h; exact h
  | succ n ih =>
    intro route arr cur t h
    rw [GreedyOptimizer.construct_loop]
    cases hsel : g.select_next_market cur route t stay ex with
    | none => exact h
    | some m =>
      dsimp only
      cases htt : g.problem.get_travel_time cur m.id with
      | none => exact h
      | some tt =>
        dsimp only
        split
        · exact h
        · rename_i hnlt
          refine ih _ _ _ _ ?_
          refine forall2_append_single _ h ?_
          have hm := (select_next_market_spec g cur route t stay ex m hsel).1
          exact step_in_window g.problem stay hstay m hm hfit _ (le_of_not_lt hnlt)

theorem market_by_id_spec (p : ProblemInstance) (i : ℤ) (h : ∃ m ∈ p.markets, m.id = i) :
    p.market_by_id i ∈ p.markets ∧ (p.market_by_id i).id = i := by
  obtain ⟨m, hm, hid⟩ := h
  have hsome : (p.get_market_by_id i).isSome := by
    rw [ProblemInstance.get_market_by_id, List.find?_isSome]
    exact ⟨m, hm, by simp [hid]⟩
  obtain ⟨m', hm'⟩ := Option.isSome_iff_exists.mp hsome
  rw [ProblemInstance.market_by_id, hm']
  refine ⟨List.mem_of_find?_eq_some hm', ?_⟩
  have := List.find?_some hm'
  simpa using this

theorem aco_select_next_spec (a : AntColonyOptimizer) (cur : ℤ) (visited : List ℤ)
    (t : ℚ) (stay : ℤ) (ex : List ℤ) (draw : ℕ) (nid : ℤ)
    (h : a.select_next_market cur visited t stay ex draw = some nid) :
    nid ∉ visited ∧ nid ∉ ex ∧ ∃ m ∈ a.problem.markets, m.id = nid := by
  rw [AntColonyOptimizer.select_next_market] at h
  cases hc : a.candidate_ids cur visited t stay ex with
  | nil => rw [hc] at h; exact absurd h (by simp)
  | cons c0 rest =>
    rw [hc] at h
    simp only [Option.some.injEq] at h
    have hlen : draw % (c0 :: rest).length < (c0 :: rest).length :=
      Nat.mod_lt _ (by simp)
    have hmemc : nid ∈ c0 :: rest := by
      rw [← h, List.getD_eq_getElem _ 0 hlen]
      exact List.getElem_mem hlen
    rw [← hc, AntColonyOptimizer.candidate_ids] at hmemc
    rcases List.mem_filterMap.mp hmemc with ⟨m, hm, hf⟩
    have hmf := List.mem_filter.mp hm
    have hcond := hmf.2
    simp only [decide_eq_true_eq] at hcond
    rcases htt : a.problem.get_travel_time cur m.id with _ | d0
    · rw [htt] at hf; exact absurd hf (by simp)
    · rw [htt] at hf
      dsimp only at hf
      have hidm : m.id = nid := by
        by_cases hz : d0 = 0
        · rw [if_pos hz] at hf
          split at hf
          · exact absurd hf (by simp)
          · simpa using hf
        · rw [if_neg hz] at hf
          split at hf
          · exact absurd hf (by simp)
          · simpa using hf
      exact ⟨hidm ▸ hcond.1, hidm ▸ hcond.2, m, hmf.1, hidm⟩

theorem aco_loop_mem (a : AntColonyOptimizer) (stay : ℤ) (ex : List ℤ) (oracle : ℕ → ℕ) :
    ∀ (fuel k : ℕ) (route arr : List ℤ) (cur : ℤ) (t : ℚ) (x : ℤ),
      x ∈ (a.construct_loop stay ex oracle fuel k route arr cur t).1 →
      x ∈ route ∨ ((∃ m ∈ a.problem.markets, m.id = x) ∧ x ∉ ex) := by
  intro fuel
  induction fuel with
  | zero => intro k route arr cur t x hx; exact Or.inl hx
  | succ n ih =>
    intro k route arr cur t x hx
    rw [AntColonyOptimizer.construct_loop] at hx
    revert hx
    cases hsel : a.select_next_market cur route t stay ex (oracle k) with
    | none => exact fun hx => Or.inl hx
    | some nid =>
      dsimp only
      cases htt : a.problem.get_travel_time cur nid with
      | none => exact fun hx => Or.inl hx
      | some tt =>
        dsimp only
        split
        · exact fun hx => Or.inl hx
        · intro hx
          rcases ih _ _ _ _ _ x hx with hx2 | hx2
          · rcases List.mem_append.mp hx2 with hx3 | hx3
            · exact Or.inl hx3
            · obtain ⟨_, hex, hexm⟩ := aco_select_next_spec a cur route t stay ex (oracle k) nid hsel
              have hxm : x = nid := List.mem_singleton.mp hx3
              exact Or.inr ⟨hxm ▸ hexm, hxm ▸ hex⟩
          · exact Or.inr hx2

theorem aco_loop_head (a : AntColonyOptimizer) (stay : ℤ) (ex : List ℤ) (oracle : ℕ → ℕ) :
    ∀ (fuel k : ℕ) (route arr : List ℤ) (cur : ℤ) (t : ℚ), route ≠ [] → arr ≠ [] →
      (a.construct_loop stay ex oracle fuel k route arr cur t).1.head? = route.head? ∧
      (a.construct_loop stay ex oracle fuel k route arr cur t).2.head? = arr.head? := by
  intro fuel
  induction fuel with
  | zero => intro k route arr cur t _ _; exact ⟨rfl, rfl⟩
  | succ n ih =>
    intro k route arr cur t hr ha
    rw [AntColonyOptimizer.construct_loop]
    cases hsel : a.select_next_market cur route t stay ex (oracle k) with
    | none => exact ⟨rfl, rfl⟩
    | some nid =>
      dsimp only
      cases htt : a.problem.get_travel_time cur nid with
      | none => exact ⟨rfl, rfl⟩
      | some tt =>
        dsimp only
        split
        · exact ⟨rfl, rfl⟩
        · obtain ⟨h1, h2⟩ := ih _ (route ++ [nid]) (arr ++ [_]) nid _ (by simp) (by simp)
          refine ⟨?_, ?_⟩
          · rw [h1, List.head?_append_of_ne_nil _ hr]
          · rw [h2, List.head?_append_of_ne_nil _ ha]

theorem aco_loop_nodup (a : AntColonyOptimizer) (stay : ℤ) (ex : List ℤ) (oracle : ℕ → ℕ) :
    ∀ (fuel k : ℕ) (route arr : List ℤ) (cur : ℤ) (t : ℚ), route.Nodup →
      (a.construct_loop stay ex oracle fuel k route arr cur t).1.Nodup := by
  intro fuel
  induction fuel with
  | zero => intro k route arr cur t h; exact h
  | succ n ih =>
    intro k route arr cur t h
    rw [AntColonyOptimizer.construct_loop]
    cases hsel : a.select_next_market cur route t stay ex (oracle k) with
    | none => exact h
    | some nid =>
      dsimp only
      cases htt : a.problem.get_travel_time cur nid with
      | none => exact h
      | some tt =>
        dsimp only
        split
        · exact h
        · refine ih _ _ _ _ _ ?_
          obtain ⟨hvis, _, _⟩ := aco_select_next_spec a cur route t stay ex (oracle k) nid hsel
          exact nodup_append_single h hvis

theorem aco_loop_windows (a : AntColonyOptimizer) (stay : ℤ) (ex : List ℤ) (oracle : ℕ → ℕ)
    (hstay : 0 ≤ stay) (hfit : windows_fit a.problem stay) :
    ∀ (fuel k : ℕ) (route arr : List ℤ) (cur : ℤ) (t : ℚ),
      List.Forall₂ (in_window a.problem stay) route arr →
      List.Forall₂ (in_window a.problem stay)
        (a.construct_loop stay ex oracle fuel k route arr cur t).1
        (a.construct_loop stay ex oracle fuel k route arr cur t).2 := by
  intro fuel
  induction fuel with
  | zero => intro k route arr cur t h; exact h
  | succ n ih =>
    intro k route arr cur t h
    rw [AntColonyOptimizer.construct_loop]
    cases hsel : a.select_next_market cur route t stay ex (oracle k) with
    | none => exact h
    | some nid =>
      dsimp only
      cases htt : a.problem.get_travel_time cur nid with
      | none => exact h
      | some tt =>
        dsimp only
        split
        · exact h
        · rename_i hnlt
          refine ih _ _ _ _ _ ?_
          refine forall2_append_single _ h ?_
          obtain ⟨_, _, hexm⟩ := aco_select_next_spec a cur route t stay ex (oracle k) nid hsel
          obtain ⟨hmem, hid⟩ := market_by_id_spec a.problem nid hexm
          have hw := step_in_window a.problem stay hstay (a.problem.market_by_id nid)
            hmem hfit _ (le_of_not_lt hnlt)
          rwa [hid] at hw

theorem in_window_start (p : ProblemInstance) (stay : ℤ) (hstay : 0 ≤ stay)
    (hfit : windows_fit p stay) (m : Market) (hm : m ∈ p.markets) :
    in_window p stay m.id (minutes_to_time ((m.opening_time : ℕ) : ℚ)) := by
  obtain ⟨hclose, hwin⟩ := hfit m hm
  have hol : m.opening_time < 1440 := by
    have h1 : (m.opening_time : ℤ) < 1440 := by omega
    exact_mod_cast h1
  rw [minutes_to_time_natCast _ hol]
  exact ⟨m, hm, rfl, le_refl _, by omega⟩

theorem greedy_construct_is_feasible (g : GreedyOptimizer) (sm : Market) (stay : ℤ)
    (ex : List ℤ) : (g.construct_solution sm stay ex).is_feasible = true := rfl

theorem greedy_construct_visited (g : GreedyOptimizer) (sm : Market) (stay : ℤ)
    (ex : List ℤ) : (g.construct_solution sm stay ex).total_markets_visited =
      (g.construct_solution sm stay ex).route.length := rfl

theorem greedy_construct_route_ok (g : GreedyOptimizer) (sm : Market) (stay : ℤ)
    (ex : List ℤ) (hstay : 0 ≤ stay) (hfit : windows_fit g.problem stay)
    (hsm : sm ∈ g.problem.markets) :
    route_ok g.problem stay (g.construct_solution sm stay ex) := by
  constructor
  · exact construct_loop_nodup g stay ex _ _ _ _ _ (List.nodup_singleton _)
  · exact construct_loop_windows g stay ex hstay hfit _ _ _ _ _
      (List.Forall₂.cons (in_window_start g.problem stay hstay hfit sm hsm) List.Forall₂.nil)

theorem greedy_construct_mem (g : GreedyOptimizer) (sm : Market) (stay : ℤ) (ex : List ℤ)
    (x : ℤ) (hx : x ∈ (g.construct_solution sm stay ex).route) :
    x = sm.id ∨ ((∃ m ∈ g.problem.markets, m.id = x) ∧ x ∉ ex) := by
  rcases construct_loop_mem g stay ex _ _ _ _ _ x hx with h | h
  · exact Or.inl (List.mem_singleton.mp h)
  · exact Or.inr h

theorem greedy_construct_head (g : GreedyOptimizer) (sm : Market) (stay : ℤ) (ex : List ℤ) :
    (g.construct_solution sm stay ex).route.head? = some sm.id ∧
    (g.construct_solution sm stay ex).arrival_times.head? =
      some (minutes_to_time ((sm.opening_time : ℕ) : ℚ)) := by
  have h := construct_loop_head g stay ex g.problem.markets.length [sm.id]
    [minutes_to_time ((sm.opening_time : ℕ) : ℚ)] sm.id ((sm.opening_time : ℕ) : ℚ)
    (by simp) (by simp)
  exact h

theorem foldl_opt_choice_mem {α γ : Type} (f : Option γ → α → Option γ) (gc : α → γ)
    (hsel : ∀ b x, f b x = b ∨ f b x = some (gc x)) :
    ∀ (l : List α) (acc : Option γ) (r : γ), l.foldl f acc = some r →
      acc = some r ∨ ∃ x ∈ l, r = gc x := by
  intro l
  induction l with
  | nil => intro acc r h; exact Or.inl h
  | cons x xs ih =>
    intro acc r h
    rw [List.foldl_cons] at h
    rcases ih (f acc x) r h with h2 | h2
    · rcases hsel acc x with h1 | h1
      · exact Or.inl (h1 ▸ h2)
      · rw [h1] at h2
        exact Or.inr ⟨x, List.mem_cons_self x xs, (Option.some.inj h2).symm⟩
    · rcases h2 with ⟨y, hy, hr⟩
      exact Or.inr ⟨y, List.mem_cons_of_mem x hy, hr⟩

theorem solve_step_cases (g : GreedyOptimizer) (stay : ℤ) (ex : List ℤ)
    (b : Option Solution) (sm : Market) :
    g.solve_step stay ex b sm = b ∨
    g.solve_step stay ex b sm = some (g.construct_solution sm stay ex) := by
  cases b with
  | none =>
    right
    simp [GreedyOptimizer.solve_step, greedy_construct_is_feasible]
  | some bb =>
    by_cases hlt : bb.total_markets_visited < (g.construct_solution sm stay ex).total_markets_visited
    · right
      simp [GreedyOptimizer.solve_step, greedy_construct_is_feasible, hlt]
    · left
      simp [GreedyOptimizer.solve_step, greedy_construct_is_feasible, hlt]

theorem greedy_solve_cases (g : GreedyOptimizer) (day : ℕ) (ex : List ℤ) :
    g.solve day ex = ⟨[], [], 0, 0, 0, false, day⟩ ∨
    ∃ sm ∈ g.problem.markets.filter (fun m => m.id ∉ ex),
      g.solve day ex =
        (g.construct_solution sm (g.problem.stay_durations.getD (day - 1) 0) ex).set_day day := by
  have hunfold : g.solve day ex =
      match (g.problem.markets.filter (fun m => m.id ∉ ex)).foldl
        (g.solve_step (g.problem.stay_durations.getD (day - 1) 0) ex) none with
      | some b => b.set_day day
      | none => ⟨[], [], 0, 0, 0, false, day⟩ := rfl
  cases hb : (g.problem.markets.filter (fun m => m.id ∉ ex)).foldl
      (g.solve_step (g.problem.stay_durations.getD (day - 1) 0) ex) none with
  | none => left; rw [hunfold, hb]
  | some bb =>
    rcases foldl_opt_choice_mem _ _
        (solve_step_cases g (g.problem.stay_durations.getD (day - 1) 0) ex) _ none bb hb with
      h | ⟨sm, hsm, hr⟩
    · exact absurd h (by simp)
    · right
      exact ⟨sm, hsm, by rw [hunfold, hb, hr]⟩

theorem set_day_route (s : Solution) (d : ℕ) : (s.set_day d).route = s.route := rfl

theorem set_day_arrivals (s : Solution) (d : ℕ) :
    (s.set_day d).arrival_times = s.arrival_times := rfl

theorem set_day_visited (s : Solution) (d : ℕ) :
    (s.set_day d).total_markets_visited = s.total_markets_visited := rfl

theorem route_ok_set_day (p : ProblemInstance) (stay : ℤ) (s : Solution) (d : ℕ)
    (h : route_ok p stay s) : route_ok p stay (s.set_day d) := h

theorem greedy_solve_route_ok (g : GreedyOptimizer) (day : ℕ) (ex : List ℤ)
    (hstay : 0 ≤ g.problem.stay_durations.getD (day - 1) 0)
    (hfit : windows_fit g.problem (g.problem.stay_durations.getD (day - 1) 0)) :
    route_ok g.problem (g.problem.stay_durations.getD (day - 1) 0) (g.solve day ex) := by
  rcases greedy_solve_cases g day ex with h | ⟨sm, hsm, h⟩
  · rw [h]
    exact ⟨List.nodup_nil, List.Forall₂.nil⟩
  · rw [h]
    exact route_ok_set_day _ _ _ _
      (greedy_construct_route_ok g sm _ ex hstay hfit (List.mem_filter.mp hsm).1)

theorem greedy_engine_contract (g : GreedyOptimizer) (day : ℕ) (ex : List ℤ) :
    (g.solve day ex).route.Nodup ∧
    (∀ x ∈ (g.solve day ex).route, x ∉ ex) ∧
    (g.solve day ex).total_markets_visited = (g.solve day ex).route.length ∧
    (∀ x ∈ (g.solve day ex).route, ∃ m ∈ g.problem.markets, m.id = x) := by
  rcases greedy_solve_cases g day ex with h | ⟨sm, hsm, h⟩
  · rw [h]
    refine ⟨List.nodup_nil, ?_, rfl, ?_⟩ <;> intro x hx <;> exact absurd hx (by simp)
  · rw [h]
    have hf := List.mem_filter.mp hsm
    have hsm_ex : sm.id ∉ ex := by
      have := hf.2
      simpa using this
    rw [set_day_route, set_day_visited]
    refine ⟨?_, ?_, ?_, ?_⟩
    · exact construct_loop_nodup g _ ex _ _ _ _ _ (List.nodup_singleton _)
    · intro x hx
      rcases greedy_construct_mem g sm _ ex x hx with h2 | h2
      · exact h2 ▸ hsm_ex
      · exact h2.2
    · exact greedy_construct_visited g sm _ ex
    · intro x hx
      rcases greedy_construct_mem g sm _ ex x hx with h2 | h2
      · exact ⟨sm, hf.1, h2.symm⟩
      · exact h2.1

theorem aco_construct_empty (a : AntColonyOptimizer) (stay : ℤ) (ex : List ℤ)
    (oracle : ℕ → ℕ)
    (hAv : (a.problem.markets.filter (fun m => m.id ∉ ex)).map Market.id = []) :
    a.construct_solution stay ex oracle = ⟨[], [], 0, 0, 0, false, 1⟩ := by
  simp only [AntColonyOptimizer.construct_solution, hAv]

theorem aco_construct_visited (a : AntColonyOptimizer) (stay : ℤ) (ex : List ℤ)
    (oracle : ℕ → ℕ) :
    (a.construct_solution stay ex oracle).total_markets_visited =
      (a.construct_solution stay ex oracle).route.length := by
  rcases hAv : (a.problem.markets.filter (fun m => m.id ∉ ex)).map Market.id with _ | ⟨c0, rest⟩
  · simp only [AntColonyOptimizer.construct_solution, hAv]
    rfl
  · simp only [AntColonyOptimizer.construct_solution, hAv]

theorem aco_construct_day (a : AntColonyOptimizer) (stay : ℤ) (ex : List ℤ)
    (oracle : ℕ → ℕ) : (a.construct_solution stay ex oracle).day = 1 := by
  rcases hAv : (a.problem.markets.filter (fun m => m.id ∉ ex)).map Market.id with _ | ⟨c0, rest⟩
  · simp only [AntColonyOptimizer.construct_solution, hAv]
  · simp only [AntColonyOptimizer.construct_solution, hAv]

theorem aco_start_id_spec (a : AntColonyOptimizer) (ex : List ℤ) (c0 : ℤ) (rest : List ℤ)
    (oracle : ℕ → ℕ)
    (hAv : (a.problem.markets.filter (fun m => m.id ∉ ex)).map Market.id = c0 :: rest) :
    (∃ m ∈ a.problem.markets, m.id = (c0 :: rest).getD (oracle 0 % (c0 :: rest).length) 0) ∧
    (c0 :: rest).getD (oracle 0 % (c0 :: rest).length) 0 ∉ ex := by
  have hlen : oracle 0 % (c0 :: rest).length < (c0 :: rest).length := Nat.mod_lt _ (by simp)
  set y := (c0 :: rest).getD (oracle 0 % (c0 :: rest).length) 0 with hy
  have hmem : y ∈ c0 :: rest := by
    rw [hy, List.getD_eq_getElem _ 0 hlen]
    exact List.getElem_mem hlen
  rw [← hAv] at hmem
  rcases List.mem_map.mp hmem with ⟨m, hmf, hid⟩
  have hfm := List.mem_filter.mp hmf
  have hneq := hfm.2
  simp only [decide_eq_true_eq] at hneq
  exact ⟨⟨m, hfm.1, hid⟩, hid ▸ hneq⟩

theorem aco_construct_route_ok (a : AntColonyOptimizer) (stay : ℤ) (ex : List ℤ)
    (oracle : ℕ → ℕ) (hstay : 0 ≤ stay) (hfit : windows_fit a.problem stay) :
    route_ok a.problem stay (a.construct_solution stay ex oracle) := by
  rcases hAv : (a.problem.markets.filter (fun m => m.id ∉ ex)).map Market.id with _ | ⟨c0, rest⟩
  · rw [aco_construct_empty a stay ex oracle hAv]
    exact ⟨List.nodup_nil, List.Forall₂.nil⟩
  · obtain ⟨hex_m, _⟩ := aco_start_id_spec a ex c0 rest oracle hAv
    obtain ⟨hmem, hid⟩ := market_by_id_spec a.problem _ hex_m
    constructor
    · show (a.construct_solution stay ex oracle).route.Nodup
      simp only [AntColonyOptimizer.construct_solution, hAv]
      exact aco_loop_nodup a stay ex oracle _ _ _ _ _ _ (List.nodup_singleton _)
    · show List.Forall₂ _ (a.construct_solution stay ex oracle).route
        (a.construct_solution stay ex oracle).arrival_times
      simp only [AntColonyOptimizer.construct_solution, hAv]
      refine aco_loop_windows a stay ex oracle hstay hfit _ _ _ _ _ _ ?_
      refine List.Forall₂.cons ?_ List.Forall₂.nil
      have hw := in_window_start a.problem stay hstay hfit _ hmem
      rwa [hid] at hw

theorem aco_construct_mem (a : AntColonyOptimizer) (stay : ℤ) (ex : List ℤ)
    (oracle : ℕ → ℕ) (x : ℤ) (hx : x ∈ (a.construct_solution stay ex oracle).route) :
    (∃ m ∈ a.problem.markets, m.id = x) ∧ x ∉ ex := by
  rcases hAv : (a.problem.markets.filter (fun m => m.id ∉ ex)).map Market.id with _ | ⟨c0, rest⟩
  · rw [aco_construct_empty a stay ex oracle hAv] at hx
    exact absurd hx (by simp)
  · rw [show (a.construct_solution stay ex oracle).route =
        ((a.construct_solution stay ex oracle).route) from rfl] at hx
    simp only [AntColonyOptimizer.construct_solution, hAv] at hx
    rcases aco_loop_mem a stay ex oracle _ _ _ _ _ _ x hx with h2 | h2
    · obtain ⟨hex_m, hnex⟩ := aco_start_id_spec a ex c0 rest oracle hAv
      have hxe : x = (c0 :: rest).getD (oracle 0 % (c0 :: rest).length) 0 :=
        List.mem_singleton.mp h2
      exact ⟨hxe ▸ hex_m, hxe ▸ hnex⟩
    · exact h2

theorem aco_construct_nodup (a : AntColonyOptimizer) (stay : ℤ) (ex : List ℤ)
    (oracle : ℕ → ℕ) : (a.construct_solution stay ex oracle).route.Nodup := by
  rcases hAv : (a.problem.markets.filter (fun m => m.id ∉ ex)).map Market.id with _ | ⟨c0, rest⟩
  · rw [aco_construct_empty a stay ex oracle hAv]
    exact List.nodup_nil
  · show (a.construct_solution stay ex oracle).route.Nodup
    simp only [AntColonyOptimizer.construct_solution, hAv]
    exact aco_loop_nodup a stay ex oracle _ _ _ _ _ _ (List.nodup_singleton _)

theorem aco_construct_head (a : AntColonyOptimizer) (stay : ℤ) (ex : List ℤ)
    (oracle : ℕ → ℕ) (c0 : ℤ) (rest : List ℤ)
    (hAv : (a.problem.markets.filter (fun m => m.id ∉ ex)).map Market.id = c0 :: rest) :
    ∃ cid, (∃ m ∈ a.problem.markets, m.id = cid) ∧
      (a.construct_solution stay ex oracle).route.head? = some cid ∧
      (a.construct_solution stay ex oracle).arrival_times.head? =
        some (minutes_to_time (((a.problem.market_by_id cid).opening_time : ℕ) : ℚ)) := by
  obtain ⟨hex_m, _⟩ := aco_start_id_spec a ex c0 rest oracle hAv
  refine ⟨(c0 :: rest).getD (oracle 0 % (c0 :: rest).length) 0, hex_m, ?_, ?_⟩
  · show (a.construct_solution stay ex oracle).route.head? = _
    simp only [AntColonyOptimizer.construct_solution, hAv]
    exact (aco_loop_head a stay ex oracle _ _ _ _ _ _ (by simp) (by simp)).1
  · show (a.construct_solution stay ex oracle).arrival_times.head? = _
    simp only [AntColonyOptimizer.construct_solution, hAv]
    exact (aco_loop_head a stay ex oracle _ _ _ _ _ _ (by simp) (by simp)).2

theorem aco_construct_feasible_route (a : AntColonyOptimizer) (stay : ℤ) (ex : List ℤ)
    (oracle : ℕ → ℕ) (h : (a.construct_solution stay ex oracle).is_feasible = true) :
    (a.construct_solution stay ex oracle).route ≠ [] := by
  rcases hAv : (a.problem.markets.filter (fun m => m.id ∉ ex)).map Market.id with _ | ⟨c0, rest⟩
  · rw [aco_construct_empty a stay ex oracle hAv] at h
    exact absurd h (by simp)
  · obtain ⟨cid, _, hhd, _⟩ := aco_construct_head a stay ex oracle c0 rest hAv
    intro hnil
    rw [hnil] at hhd
    exact absurd hhd (by simp)

theorem aco_construct_infeasible_iff (a : AntColonyOptimizer) (stay : ℤ) (ex : List ℤ)
    (oracle : ℕ → ℕ) :
    (a.construct_solution stay ex oracle).is_feasible = false ↔
      a.problem.markets.filter (fun m => m.id ∉ ex) = [] := by
  rcases hAv : (a.problem.markets.filter (fun m => m.id ∉ ex)).map Market.id with _ | ⟨c0, rest⟩
  · rw [aco_construct_empty a stay ex oracle hAv]
    simp only [List.map_eq_nil_iff] at hAv
    simpa using hAv
  · constructor
    · intro hfeas
      have : (a.construct_solution stay ex oracle).is_feasible = true := by
        simp only [AntColonyOptimizer.construct_solution, hAv]
      rw [this] at hfeas
      exact absurd hfeas (by simp)
    · intro hnil
      rw [hnil] at hAv
      exact absurd hAv (by simp)

theorem pick_better_some (b s : Solution) :
    pick_better (some b) s =
      some (if b.total_markets_visited < s.total_markets_visited then s else b) := by
  show (if b.total_markets_visited < s.total_markets_visited then some s else some b) = _
  split_ifs <;> rfl

theorem foldl_pick_better_some (b : Solution) (l : List Solution) :
    l.foldl pick_better (some b) = some (pick_first_max b l) := by
  induction l generalizing b with
  | nil => rfl
  | cons x xs ih =>
    rw [List.foldl_cons, pick_better_some, ih]
    rfl

theorem pick_first_max_shift (bb f0 : Solution) (fs : List Solution) :
    pick_first_max bb (f0 :: fs) =
      if bb.total_markets_visited < (pick_first_max f0 fs).total_markets_visited
      then pick_first_max f0 fs else bb := by
  induction fs generalizing bb f0 with
  | nil =>
    show (if bb.total_markets_visited < f0.total_markets_visited then f0 else bb) = _
    rfl
  | cons x xs ih =>
    have hL : pick_first_max bb (f0 :: x :: xs) =
        pick_first_max (if bb.total_markets_visited < f0.total_markets_visited then f0 else bb)
          (x :: xs) := rfl
    rw [hL, ih, ih]
    split_ifs <;> first | rfl | (exfalso; omega)

theorem foldl_pick_better_eq_none_iff (l : List Solution) (b : Option Solution) :
    l.foldl pick_better b = none ↔ b = none ∧ l = [] := by
  cases l with
  | nil => simp
  | cons x xs =>
    rw [List.foldl_cons]
    cases b with
    | none =>
      rw [show pick_better none x = some x from rfl, foldl_pick_better_some]
      simp
    | some bb =>
      rw [pick_better_some, foldl_pick_better_some]
      simp

theorem pick_better_cases (b : Option Solution) (s : Solution) :
    pick_better b s = b ∨ pick_better b s = some s := by
  cases b with
  | none => exact Or.inr rfl
  | some bb =>
    by_cases h : bb.total_markets_visited < s.total_markets_visited
    · exact Or.inr (by simp [pick_better, h])
    · exact Or.inl (by simp [pick_better, h])

theorem run_iteration_best (a : AntColonyOptimizer) (stay : ℤ) (ex : List ℤ)
    (iter_oracle : ℕ → ℕ → ℕ) (st : AcoState) :
    (a.run_iteration stay ex iter_oracle st).best_solution =
      (((List.range a.num_ants).map (fun ant =>
        a.construct_solution stay ex (iter_oracle ant))).filter
          (fun s => s.is_feasible)).foldl pick_better st.best_solution := by
  rw [AntColonyOptimizer.run_iteration]
  dsimp only
  cases hfe : ((List.range a.num_ants).map (fun ant =>
      a.construct_solution stay ex (iter_oracle ant))).filter (fun s => s.is_feasible) with
  | nil => rfl
  | cons f0 fs =>
    cases hb : st.best_solution with
    | none =>
      dsimp only
      rw [List.foldl_cons, show pick_better none f0 = some f0 from rfl,
        foldl_pick_better_some]
    | some bb =>
      dsimp only
      rw [List.foldl_cons, pick_better_some,
        foldl_pick_better_some, show pick_first_max
          (if bb.total_markets_visited < f0.total_markets_visited then f0 else bb) fs =
          pick_first_max bb (f0 :: fs) from rfl, pick_first_max_shift]
      split_ifs <;> rfl

theorem run_iteration_best_cases (a : AntColonyOptimizer) (stay : ℤ) (ex : List ℤ)
    (iter_oracle : ℕ → ℕ → ℕ) (st : AcoState) :
    (a.run_iteration stay ex iter_oracle st).best_solution = st.best_solution ∨
    ∃ ant, ant < a.num_ants ∧
      (a.run_iteration stay ex iter_oracle st).best_solution =
        some (a.construct_solution stay ex (iter_oracle ant)) ∧
      (a.construct_solution stay ex (iter_oracle ant)).is_feasible = true := by
  rw [run_iteration_best]
  cases hr : (((List.range a.num_ants).map (fun ant =>
      a.construct_solution stay ex (iter_oracle ant))).filter
        (fun s => s.is_feasible)).foldl pick_better st.best_solution with
  | none => exact Or.inl ((foldl_pick_better_eq_none_iff _ _).mp hr).1.symm
  | some r =>
    rcases foldl_opt_choice_mem pick_better id
        (fun b x => by
          rcases pick_better_cases b x with h | h
          · exact Or.inl h
          · exact Or.inr h) _ st.best_solution r hr with h | ⟨s, hs, hr2⟩
    · exact Or.inl h.symm
    · right
      have hsf := List.mem_filter.mp hs
      rcases List.mem_map.mp hsf.1 with ⟨ant, hant, hseq⟩
      refine ⟨ant, List.mem_range.mp hant, ?_, ?_⟩
      · rw [hseq]
        exact congrArg some hr2
      · rw [hseq]
        exact hsf.2

theorem fold_iterations_mem (a : AntColonyOptimizer) (stay : ℤ) (ex : List ℤ)
    (oracle : ℕ → ℕ → ℕ → ℕ) :
    ∀ (l : List ℕ) (st : AcoState),
      (st.best_solution = none ∨ ∃ i ant, ant < a.num_ants ∧
        st.best_solution = some (a.construct_solution stay ex (oracle i ant)) ∧
        (a.construct_solution stay ex (oracle i ant)).is_feasible = true) →
      ((l.foldl (fun st iter => a.run_iteration stay ex (oracle iter) st) st).best_solution = none ∨
        ∃ i ant, ant < a.num_ants ∧
          (l.foldl (fun st iter => a.run_iteration stay ex (oracle iter) st) st).best_solution =
            some (a.construct_solution stay ex (oracle i ant)) ∧
          (a.construct_solution stay ex (oracle i ant)).is_feasible = true) := by
  intro l
  induction l with
  | nil => intro st h; exact h
  | cons iter rest ih =>
    intro st h
    rw [List.foldl_cons]
    apply ih
    rcases run_iteration_best_cases a stay ex (oracle iter) st with h2 | ⟨ant, hant, h2, h3⟩
    · rw [h2]; exact h
    · exact Or.inr ⟨iter, ant, hant, h2, h3⟩

theorem fold_iterations_none_iff (a : AntColonyOptimizer) (stay : ℤ) (ex : List ℤ)
    (oracle : ℕ → ℕ → ℕ → ℕ) :
    ∀ (l : List ℕ) (st : AcoState),
      ((l.foldl (fun st iter => a.run_iteration stay ex (oracle iter) st) st).best_solution = none ↔
        st.best_solution = none ∧ ∀ i ∈ l,
          ((List.range a.num_ants).map (fun ant =>
            a.construct_solution stay ex (oracle i ant))).filter (fun s => s.is_feasible) = []) := by
  intro l
  induction l with
  | nil => intro st; simp
  | cons iter rest ih =>
    intro st
    rw [List.foldl_cons, ih]
    have h1 : (a.run_iteration stay ex (oracle iter) st).best_solution = none ↔
        st.best_solution = none ∧
        ((List.range a.num_ants).map (fun ant =>
          a.construct_solution stay ex (oracle iter ant))).filter (fun s => s.is_feasible) = [] := by
      rw [run_iteration_best, foldl_pick_better_eq_none_iff]
    rw [h1]
    constructor
    · rintro ⟨⟨hb, hf⟩, hrest⟩
      refine ⟨hb, fun i hi => ?_⟩
      rcases List.mem_cons.mp hi with h | h
      · exact h ▸ hf
      · exact hrest i h
    · rintro ⟨hb, hall⟩
      exact ⟨⟨hb, hall iter (List.mem_cons_self _ _)⟩,
        fun i hi => hall i (List.mem_cons_of_mem _ hi)⟩

theorem aco_solve_cases (a : AntColonyOptimizer) (oracle : ℕ → ℕ → ℕ → ℕ) (day : ℕ)
    (ex : List ℤ) :
    a.solve oracle day ex = ⟨[], [], 0, 0, 0, false, day⟩ ∨
    ∃ i ant, ant < a.num_ants ∧
      (a.construct_solution (a.problem.stay_durations.getD (day - 1) 0) ex
        (oracle i ant)).is_feasible = true ∧
      a.solve oracle day ex =
        (a.construct_solution (a.problem.stay_durations.getD (day - 1) 0) ex
          (oracle i ant)).set_day day := by
  have hunfold : a.solve oracle day ex =
      match (a.run_all (a.problem.stay_durations.getD (day - 1) 0) ex oracle).best_solution with
      | some b => b.set_day day
      | none => ⟨[], [], 0, 0, 0, false, day⟩ := rfl
  have hmem := fold_iterations_mem a (a.problem.stay_durations.getD (day - 1) 0) ex oracle
    (List.range a.num_iterations) a.initial_state (Or.inl rfl)
  rcases hmem with h | ⟨i, ant, hant, h, hf⟩
  · have h' : (a.run_all (a.problem.stay_durations.getD (day - 1) 0) ex oracle).best_solution
        = none := h
    left
    rw [hunfold, h']
  · have h' : (a.run_all (a.problem.stay_durations.getD (day - 1) 0) ex oracle).best_solution
        = some (a.construct_solution (a.problem.stay_durations.getD (day - 1) 0) ex
          (oracle i ant)) := h
    right
    exact ⟨i, ant, hant, hf, by rw [hunfold, h']⟩

theorem aco_solve_route_ok (a : AntColonyOptimizer) (oracle : ℕ → ℕ → ℕ → ℕ) (day : ℕ)
    (ex : List ℤ) (hstay : 0 ≤ a.problem.stay_durations.getD (day - 1) 0)
    (hfit : windows_fit a.problem (a.problem.stay_durations.getD (day - 1) 0)) :
    route_ok a.problem (a.problem.stay_durations.getD (day - 1) 0) (a.solve oracle day ex) := by
  rcases aco_solve_cases a oracle day ex with h | ⟨i, ant, _, _, h⟩
  · rw [h]
    exact ⟨List.nodup_nil, List.Forall₂.nil⟩
  · rw [h]
    exact route_ok_set_day _ _ _ _ (aco_construct_route_ok a _ ex (oracle i ant) hstay hfit)

theorem aco_engine_contract (a : AntColonyOptimizer) (oracle : ℕ → ℕ → ℕ → ℕ) (day : ℕ)
    (ex : List ℤ) :
    (a.solve oracle day ex).route.Nodup ∧
    (∀ x ∈ (a.solve oracle day ex).route, x ∉ ex) ∧
    (a.solve oracle day ex).total_markets_visited = (a.solve oracle day ex).route.length ∧
    (∀ x ∈ (a.solve oracle day ex).route, ∃ m ∈ a.problem.markets, m.id = x) := by
  rcases aco_solve_cases a oracle day ex with h | ⟨i, ant, _, _, h⟩
  · rw [h]
    refine ⟨List.nodup_nil, ?_, rfl, ?_⟩ <;> intro x hx <;> exact absurd hx (by simp)
  · rw [h, set_day_route, set_day_visited]
    refine ⟨aco_construct_nodup a _ ex (oracle i ant), ?_, aco_construct_visited a _ ex (oracle i ant), ?_⟩
    · intro x hx
      exact (aco_construct_mem a _ ex (oracle i ant) x hx).2
    · intro x hx
      exact (aco_construct_mem a _ ex (oracle i ant) x hx).1

/-- C1 (counterexample): on a single market whose window (10:00-10:10) is
shorter than the 30-minute stay, `GreedyOptimizer.solve` returns a feasible
solution visiting that market at 10:00 = minute 600, but
`600 ≤ closingTime - stay = 580` fails, so the claimed window bound is
violated as stated. -/
theorem C1_route_validity_counterexample :
    ((GreedyOptimizer.solve ⟨tight_window_problem, "hybrid", 2/5, 3/5⟩ 1 []).is_feasible = true) ∧
    ((GreedyOptimizer.solve ⟨tight_window_problem, "hybrid", 2/5, 3/5⟩ 1 []).route = [1]) ∧
    ((GreedyOptimizer.solve ⟨tight_window_problem, "hybrid", 2/5, 3/5⟩ 1 []).arrival_times = [600]) ∧
    ¬ in_window tight_window_problem 30 1 600 := by
  refine ⟨by decide, by decide, by decide, ?_⟩
  intro ⟨m, hm, hid, hlo, hhi⟩
  have hm1 : m = ⟨1, 600, 610⟩ := List.mem_singleton.mp hm
  rw [hm1] at hhi
  exact absurd hhi (by decide)

/-- C1 (amended): assuming every market window is at least the stay long and
closing times are valid times of day, every Solution returned by either
engine has a duplicate-free route and every visited stop's recorded arrival
lies between its opening time and its closing time minus the stay. -/
theorem C1_route_validity_amended (p : ProblemInstance) (heu : String) (dw tw : ℚ)
    (na ni : ℕ) (evap pherinit q ew : ℚ) (elite : Bool) (oracle : ℕ → ℕ → ℕ → ℕ)
    (day : ℕ) (ex : List ℤ)
    (hstay : 0 ≤ p.stay_durations.getD (day - 1) 0)
    (hfit : windows_fit p (p.stay_durations.getD (day - 1) 0)) :
    route_ok p (p.stay_durations.getD (day - 1) 0)
      (GreedyOptimizer.solve ⟨p, heu, dw, tw⟩ day ex) ∧
    route_ok p (p.stay_durations.getD (day - 1) 0)
      (AntColonyOptimizer.solve ⟨p, na, ni, evap, pherinit, q, elite, ew⟩ oracle day ex) :=
  ⟨greedy_solve_route_ok ⟨p, heu, dw, tw⟩ day ex hstay hfit,
   aco_solve_route_ok ⟨p, na, ni, evap, pherinit, q, elite, ew⟩ oracle day ex hstay hfit⟩

/-- Witness for the amended C1 on the concrete three-market scenario. -/
theorem C1_route_validity_amended_witness :
    (0 ≤ scenario_problem.stay_durations.getD 0 0 ∧
     windows_fit scenario_problem (scenario_problem.stay_durations.getD 0 0)) ∧
    (route_ok scenario_problem (scenario_problem.stay_durations.getD 0 0)
      (GreedyOptimizer.solve ⟨scenario_problem, "hybrid", 2/5, 3/5⟩ 1 []) ∧
     route_ok scenario_problem (scenario_problem.stay_durations.getD 0 0)
      (AntColonyOptimizer.solve ⟨scenario_problem, 2, 2, 1/2, 1, 100, true, 2⟩
        (fun _ _ _ => 0) 1 [])) :=
  ⟨⟨by decide, by decide⟩,
   C1_route_validity_amended scenario_problem "hybrid" (2/5) (3/5) 2 2 (1/2) 1 100 2 true
     (fun _ _ _ => 0) 1 [] (by decide) (by decide)⟩

/-- C10: the first recorded arrival time of every non-empty returned Solution
is the opening time of the route's first market, for both engines, whatever
the travel table and transfer buffer hold. -/
theorem C10_start_at_opening (p : ProblemInstance) (heu : String) (dw tw : ℚ)
    (na ni : ℕ) (evap pherinit q ew : ℚ) (elite : Bool) (oracle : ℕ → ℕ → ℕ → ℕ)
    (day : ℕ) (ex : List ℤ)
    (hvalid : ∀ m ∈ p.markets, m.opening_time < 1440) :
    (∀ b, (GreedyOptimizer.solve ⟨p, heu, dw, tw⟩ day ex).route.head? = some b →
      ∃ m ∈ p.markets, m.id = b ∧
        (GreedyOptimizer.solve ⟨p, heu, dw, tw⟩ day ex).arrival_times.head? =
          some ((m.opening_time : ℤ))) ∧
    (∀ b, (AntColonyOptimizer.solve ⟨p, na, ni, evap, pherinit, q, elite, ew⟩
        oracle day ex).route.head? = some b →
      ∃ m ∈ p.markets, m.id = b ∧
        (AntColonyOptimizer.solve ⟨p, na, ni, evap, pherinit, q, elite, ew⟩
          oracle day ex).arrival_times.head? = some ((m.opening_time : ℤ))) := by
  constructor
  · intro b hb
    rcases greedy_solve_cases ⟨p, heu, dw, tw⟩ day ex with h | ⟨sm, hsm, h⟩
    · rw [h] at hb
      exact absurd hb (by simp)
    · rw [h, set_day_route] at hb
      obtain ⟨hr, ha⟩ := greedy_construct_head ⟨p, heu, dw, tw⟩ sm _ ex
      rw [hr] at hb
      have hbm : b = sm.id := (Option.some.inj hb).symm
      have hsm' : sm ∈ p.markets := (List.mem_filter.mp hsm).1
      refine ⟨sm, hsm', hbm.symm, ?_⟩
      rw [h, set_day_arrivals, ha, minutes_to_time_natCast _ (hvalid sm hsm')]
  · intro b hb
    rcases aco_solve_cases ⟨p, na, ni, evap, pherinit, q, elite, ew⟩ oracle day ex with
      h | ⟨i, ant, _, _, h⟩
    · rw [h] at hb
      exact absurd hb (by simp)
    · rw [h, set_day_route] at hb
      rcases hAv : ((⟨p, na, ni, evap, pherinit, q, elite, ew⟩ :
          AntColonyOptimizer).problem.markets.filter (fun m => m.id ∉ ex)).map Market.id with
        _ | ⟨c0, rest⟩
      · rw [aco_construct_empty _ _ ex (oracle i ant) hAv] at hb
        exact absurd hb (by simp)
      · obtain ⟨cid, hex_m, hhd, harr⟩ :=
          aco_construct_head ⟨p, na, ni, evap, pherinit, q, elite, ew⟩ _ ex (oracle i ant)
            c0 rest hAv
        rw [hhd] at hb
        have hbm : b = cid := (Option.some.inj hb).symm
        obtain ⟨hmem, hid⟩ := market_by_id_spec p cid hex_m
        refine ⟨p.market_by_id cid, hmem, by rw [hid, hbm], ?_⟩
        rw [h, set_day_arrivals, harr,
          minutes_to_time_natCast _ (hvalid (p.market_by_id cid) hmem)]

/-- Witness for C10 on the single-market instance (route `[1]`, arrival at
the opening time 600). -/
theorem C10_start_at_opening_witness :
    (∀ m ∈ tight_window_problem.markets, m.opening_time < 1440) ∧
    ((∀ b, (GreedyOptimizer.solve ⟨tight_window_problem, "hybrid", 2/5, 3/5⟩ 1 []).route.head? =
        some b →
      ∃ m ∈ tight_window_problem.markets, m.id = b ∧
        (GreedyOptimizer.solve ⟨tight_window_problem, "hybrid", 2/5, 3/5⟩ 1 []).arrival_times.head? =
          some ((m.opening_time : ℤ))) ∧
    (∀ b, (AntColonyOptimizer.solve ⟨tight_window_problem, 2, 2, 1/2, 1, 100, true, 2⟩
        (fun _ _ _ => 0) 1 []).route.head? = some b →
      ∃ m ∈ tight_window_problem.markets, m.id = b ∧
        (AntColonyOptimizer.solve ⟨tight_window_problem, 2, 2, 1/2, 1, 100, true, 2⟩
          (fun _ _ _ => 0) 1 []).arrival_times.head? = some ((m.opening_time : ℤ)))) :=
  ⟨by decide,
   C10_start_at_opening tight_window_problem "hybrid" (2/5) (3/5) 2 2 (1/2) 1 100 2 true
     (fun _ _ _ => 0) 1 [] (by decide)⟩

/-- C3: the `nearest` policy selects the minimum-travel-cost candidate among
all non-visited, non-excluded markets with no feasibility pre-filtering
(first conjunct); whenever the single selected candidate fails the
feasibility check, the construction loop returns the route unchanged, i.e.
the route ends there with no fallback (second conjunct).  On the concrete
scenario of spec section 8, `nearest` picks the infeasible B
(projected arrival 635 > latest 610) and stops at route `[A]`, while
`hybrid` picks the farther feasible C and builds `[A, C]`. -/
theorem C3_nearest_terminates_route :
    (∀ (g : GreedyOptimizer) (cur : ℤ) (visited : List ℤ) (t : ℚ) (stay : ℤ) (ex : List ℤ),
      g.heuristic = "nearest" →
      g.select_next_market cur visited t stay ex =
        match g.problem.markets.filter (fun m => m.id ∉ visited ∧ m.id ∉ ex) with
        | [] => none
        | m0 :: rest => some (pick_min_by (fun m => g.problem.travel_cost cur m.id) m0 rest)) ∧
    (∀ (g : GreedyOptimizer) (stay : ℤ) (ex : List ℤ) (fuel : ℕ) (route arr : List ℤ)
      (cur : ℤ) (t : ℚ) (m : Market),
      g.select_next_market cur route t stay ex = some m →
      (∀ tt, g.problem.get_travel_time cur m.id = some tt →
        ((m.latest_arrival_time stay : ℤ) : ℚ) <
          t + (stay : ℚ) + tt + (g.problem.transfer_buffer : ℚ)) →
      g.construct_loop stay ex (fuel + 1) route arr cur t = (route, arr)) ∧
    (GreedyOptimizer.select_next_market ⟨scenario_problem, "nearest", 2/5, 3/5⟩ 1 [1] 600 30 [] =
      some ⟨2, 600, 640⟩) ∧
    (((⟨2, 600, 640⟩ : Market).latest_arrival_time 30 : ℚ) < 600 + (30 : ℚ) + 5 + 0) ∧
    ((GreedyOptimizer.construct_solution ⟨scenario_problem, "nearest", 2/5, 3/5⟩
      ⟨1, 600, 1320⟩ 30 []).route = [1]) ∧
    (GreedyOptimizer.select_next_market ⟨scenario_problem, "hybrid", 2/5, 3/5⟩ 1 [1] 600 30 [] =
      some ⟨3, 600, 1200⟩) ∧
    ((GreedyOptimizer.construct_solution ⟨scenario_problem, "hybrid", 2/5, 3/5⟩
      ⟨1, 600, 1320⟩ 30 []).route = [1, 3]) := by
  refine ⟨?_, ?_, by decide, by decide, by decide, by decide, by decide⟩
  · intro g cur visited t stay ex hheu
    simp only [GreedyOptimizer.select_next_market, hheu]
    cases havail : g.problem.markets.filter (fun m => m.id ∉ visited ∧ m.id ∉ ex) with
    | nil => simp
    | cons m0 rest => simp [GreedyOptimizer.select_nearest]
  · intro g stay ex fuel route arr cur t m hsel hinf
    simp only [GreedyOptimizer.construct_loop]
    rw [hsel]
    dsimp only
    cases htt : g.problem.get_travel_time cur m.id with
    | none => rfl
    | some tt =>
      dsimp only
      rw [if_pos (hinf tt htt)]

theorem foldl_pick_better_spec :
    ∀ (l : List Solution) (r : Solution), l.foldl pick_better none = some r →
      ∃ i, ∃ hi : i < l.length, r = l[i] ∧
        (∀ j, j < i → ∀ hj : j < l.length,
          (l[j]).total_markets_visited < r.total_markets_visited) ∧
        (∀ j, ∀ hj : j < l.length, (l[j]).total_markets_visited ≤ r.total_markets_visited) := by
  intro l
  induction l using List.reverseRecOn with
  | nil => intro r h; exact absurd h (by simp)
  | append_singleton l x ih =>
    intro r h
    rw [List.foldl_append, List.foldl_cons, List.foldl_nil] at h
    cases hprev : l.foldl pick_better none with
    | none =>
      have hl : l = [] := ((foldl_pick_better_eq_none_iff l none).mp hprev).2
      subst hl
      rw [hprev] at h
      have hrx : r = x := (Option.some.inj h).symm
      refine ⟨0, by simp, by simp [hrx], ?_, ?_⟩
      · intro j hj _
        omega
      · intro j hj
        have : j = 0 := by simpa using hj
        subst this
        simp [hrx]
    | some rp =>
      rw [hprev] at h
      rcases ih rp hprev with ⟨i, hi, hri, hstrict, hle⟩
      by_cases hcmp : rp.total_markets_visited < x.total_markets_visited
      · have hrx : r = x := by
          rw [pick_better_some, if_pos hcmp] at h
          exact (Option.some.inj h).symm
        have hlen : l.length < (l ++ [x]).length := by simp
        refine ⟨l.length, hlen, ?_, ?_, ?_⟩
        · rw [hrx, List.getElem_concat_length l x l.length rfl hlen]
        · intro j hj hj2
          have hjl : j < l.length := hj
          rw [List.getElem_append_left hjl, hrx]
          exact lt_of_le_of_lt (hri ▸ hle j hjl) hcmp
        · intro j hj2
          have hsplit : j < l.length ∨ j = l.length := by
            rw [List.length_append, List.length_singleton] at hj2
            omega
          rcases hsplit with hjl | hjl
          · rw [List.getElem_append_left hjl, hrx]
            exact le_of_lt (lt_of_le_of_lt (hri ▸ hle j hjl) hcmp)
          · subst hjl
            rw [List.getElem_concat_length l x l.length rfl hj2, hrx]
      · have hrr : r = rp := by
          rw [pick_better_some, if_neg hcmp] at h
          exact (Option.some.inj h).symm
        have hi2 : i < (l ++ [x]).length := by
          rw [List.length_append]
          omega
        refine ⟨i, hi2, ?_, ?_, ?_⟩
        · rw [List.getElem_append_left hi, hrr, hri]
        · intro j hj hj2
          have hjl : j < l.length := by omega
          rw [List.getElem_append_left hjl, hrr]
          exact hri ▸ hstrict j hj hjl
        · intro j hj2
          have hsplit : j < l.length ∨ j = l.length := by
            rw [List.length_append, List.length_singleton] at hj2
            omega
          rcases hsplit with hjl | hjl
          · rw [List.getElem_append_left hjl, hrr]
            exact hri ▸ hle j hjl
          · subst hjl
            rw [List.getElem_concat_length l x l.length rfl hj2, hrr]
            exact le_of_not_lt hcmp

theorem pick_first_max_of_le (b : Solution) (l : List Solution)
    (h : ∀ s ∈ l, s.total_markets_visited ≤ b.total_markets_visited) :
    pick_first_max b l = b := by
  induction l with
  | nil => rfl
  | cons x xs ih =>
    have hx : ¬ b.total_markets_visited < x.total_markets_visited :=
      not_lt.mpr (h x (List.mem_cons_self x xs))
    show pick_first_max (if b.total_markets_visited < x.total_markets_visited then x else b) xs = b
    rw [if_neg hx]
    exact ih (fun s hs => h s (List.mem_cons_of_mem x hs))

theorem pick_first_max_cases (b : Solution) (l : List Solution) :
    pick_first_max b l = b ∨
    (pick_first_max b l ∈ l ∧
      b.total_markets_visited < (pick_first_max b l).total_markets_visited) := by
  induction l generalizing b with
  | nil => exact Or.inl rfl
  | cons x xs ih =>
    have hshow : pick_first_max b (x :: xs) =
        pick_first_max (if b.total_markets_visited < x.total_markets_visited then x else b) xs :=
      rfl
    by_cases hc : b.total_markets_visited < x.total_markets_visited
    · rw [hshow, if_pos hc]
      rcases ih x with h2 | h2
      · refine Or.inr ⟨?_, ?_⟩
        · rw [h2]; exact List.mem_cons_self x xs
        · rw [h2]; exact hc
      · exact Or.inr ⟨List.mem_cons_of_mem x h2.1, lt_trans hc h2.2⟩
    · rw [hshow, if_neg hc]
      rcases ih b with h2 | h2
      · exact Or.inl h2
      · exact Or.inr ⟨List.mem_cons_of_mem x h2.1, h2.2⟩

theorem greedy_solve_fold_eq (g : GreedyOptimizer) (stay : ℤ) (ex : List ℤ)
    (starts : List Market) :
    starts.foldl (g.solve_step stay ex) none =
      (starts.map (fun sm => g.construct_solution sm stay ex)).foldl pick_better none := by
  rw [List.foldl_map]
  refine List.foldl_ext _ _ none (fun b sm _ => ?_)
  cases b with
  | none => simp [GreedyOptimizer.solve_step, pick_better, greedy_construct_is_feasible]
  | some bb =>
    by_cases hlt : bb.total_markets_visited <
        (g.construct_solution sm stay ex).total_markets_visited
    · simp [GreedyOptimizer.solve_step, pick_better, greedy_construct_is_feasible, hlt]
    · simp [GreedyOptimizer.solve_step, pick_better, greedy_construct_is_feasible, hlt]

theorem set_day_feasible (s : Solution) (d : ℕ) :
    (s.set_day d).is_feasible = s.is_feasible := rfl

theorem set_day_day (s : Solution) (d : ℕ) : (s.set_day d).day = d := rfl

/-- C7: the greedy multi-start keeps the first strict maximum of the per-start
solutions (in location-list order), and the ACO running best is the
strict-improvement fold over each iteration's feasible solutions: it is kept
unchanged whenever no candidate strictly exceeds it, and replaced only by a
strictly better candidate. -/
theorem C7_strict_improvement_first_max (g : GreedyOptimizer) (day : ℕ) (ex : List ℤ)
    (a : AntColonyOptimizer) (stay : ℤ) (ex2 : List ℤ) (iter_oracle : ℕ → ℕ → ℕ)
    (st : AcoState)
    (hne : g.problem.markets.filter (fun m => m.id ∉ ex) ≠ []) :
    (∃ i, ∃ hi : i < (greedy_start_solutions g day ex).length,
      g.solve day ex = ((greedy_start_solutions g day ex)[i]).set_day day ∧
      (∀ j, j < i → ∀ hj : j < (greedy_start_solutions g day ex).length,
        ((greedy_start_solutions g day ex)[j]).total_markets_visited <
          ((greedy_start_solutions g day ex)[i]).total_markets_visited) ∧
      (∀ j, ∀ hj : j < (greedy_start_solutions g day ex).length,
        ((greedy_start_solutions g day ex)[j]).total_markets_visited ≤
          ((greedy_start_solutions g day ex)[i]).total_markets_visited)) ∧
    ((a.run_iteration stay ex2 iter_oracle st).best_solution =
      (aco_iteration_feasible a stay ex2 iter_oracle).foldl pick_better st.best_solution) ∧
    (∀ bb, st.best_solution = some bb →
      (∀ s ∈ aco_iteration_feasible a stay ex2 iter_oracle,
        s.total_markets_visited ≤ bb.total_markets_visited) →
      (a.run_iteration stay ex2 iter_oracle st).best_solution = some bb) ∧
    (∀ bb r, st.best_solution = some bb →
      (a.run_iteration stay ex2 iter_oracle st).best_solution = some r →
      r = bb ∨ bb.total_markets_visited < r.total_markets_visited) := by
  have hiter : (a.run_iteration stay ex2 iter_oracle st).best_solution =
      (aco_iteration_feasible a stay ex2 iter_oracle).foldl pick_better st.best_solution :=
    run_iteration_best a stay ex2 iter_oracle st
  refine ⟨?_, hiter, ?_, ?_⟩
  · have hunfold : g.solve day ex =
        match (g.problem.markets.filter (fun m => m.id ∉ ex)).foldl
          (g.solve_step (g.problem.stay_durations.getD (day - 1) 0) ex) none with
        | some b => b.set_day day
        | none => ⟨[], [], 0, 0, 0, false, day⟩ := rfl
    have hfold : (g.problem.markets.filter (fun m => m.id ∉ ex)).foldl
        (g.solve_step (g.problem.stay_durations.getD (day - 1) 0) ex) none =
        (greedy_start_solutions g day ex).foldl pick_better none :=
      greedy_solve_fold_eq g _ ex _
    rw [hfold] at hunfold
    cases hb : (greedy_start_solutions g day ex).foldl pick_better none with
    | none =>
      have := ((foldl_pick_better_eq_none_iff _ _).mp hb).2
      rw [greedy_start_solutions] at this
      exact absurd (List.map_eq_nil_iff.mp this) hne
    | some r =>
      rcases foldl_pick_better_spec _ r hb with ⟨i, hi, hri, hstrict, hle⟩
      refine ⟨i, hi, ?_, ?_, ?_⟩
      · rw [hunfold, hb, ← hri]
      · intro j hj hj2
        exact hri ▸ hstrict j hj hj2
      · intro j hj2
        exact hri ▸ hle j hj2
  · intro bb hbb hle
    rw [hiter, hbb, foldl_pick_better_some]
    exact congrArg some (pick_first_max_of_le bb _ hle)
  · intro bb r hbb hr
    rw [hiter, hbb, foldl_pick_better_some] at hr
    have hreq : r = pick_first_max bb (aco_iteration_feasible a stay ex2 iter_oracle) :=
      (Option.some.inj hr).symm
    rcases pick_first_max_cases bb (aco_iteration_feasible a stay ex2 iter_oracle) with h2 | h2
    · exact Or.inl (hreq.trans h2)
    · exact Or.inr (hreq ▸ h2.2)

/-- Witness for C7 on the scenario instance (hybrid greedy; a one-ant
iteration from the initial ACO state). -/
theorem C7_strict_improvement_first_max_witness :
    (scenario_problem.markets.filter (fun m => m.id ∉ ([] : List ℤ)) ≠ []) ∧
    ((∃ i, ∃ hi : i < (greedy_start_solutions ⟨scenario_problem, "hybrid", 2/5, 3/5⟩ 1 []).length,
      GreedyOptimizer.solve ⟨scenario_problem, "hybrid", 2/5, 3/5⟩ 1 [] =
        ((greedy_start_solutions ⟨scenario_problem, "hybrid", 2/5, 3/5⟩ 1 [])[i]).set_day 1 ∧
      (∀ j, j < i → ∀ hj : j <
          (greedy_start_solutions ⟨scenario_problem, "hybrid", 2/5, 3/5⟩ 1 []).length,
        ((greedy_start_solutions ⟨scenario_problem, "hybrid", 2/5, 3/5⟩ 1 [])[j]).total_markets_visited <
          ((greedy_start_solutions ⟨scenario_problem, "hybrid", 2/5, 3/5⟩ 1 [])[i]).total_markets_visited) ∧
      (∀ j, ∀ hj : j <
          (greedy_start_solutions ⟨scenario_problem, "hybrid", 2/5, 3/5⟩ 1 []).length,
        ((greedy_start_solutions ⟨scenario_problem, "hybrid", 2/5, 3/5⟩ 1 [])[j]).total_markets_visited ≤
          ((greedy_start_solutions ⟨scenario_problem, "hybrid", 2/5, 3/5⟩ 1 [])[i]).total_markets_visited)) ∧
    (((⟨scenario_problem, 1, 1, 1/2, 1, 100, true, 2⟩ : AntColonyOptimizer).run_iteration
        30 [] (fun _ _ => 0)
        (⟨scenario_problem, 1, 1, 1/2, 1, 100, true, 2⟩ :
          AntColonyOptimizer).initial_state).best_solution =
      (aco_iteration_feasible ⟨scenario_problem, 1, 1, 1/2, 1, 100, true, 2⟩ 30 []
        (fun _ _ => 0)).foldl pick_better
        ((⟨scenario_problem, 1, 1, 1/2, 1, 100, true, 2⟩ :
          AntColonyOptimizer).initial_state).best_solution) ∧
    (∀ bb, ((⟨scenario_problem, 1, 1, 1/2, 1, 100, true, 2⟩ :
        AntColonyOptimizer).initial_state).best_solution = some bb →
      (∀ s ∈ aco_iteration_feasible ⟨scenario_problem, 1, 1, 1/2, 1, 100, true, 2⟩ 30 []
          (fun _ _ => 0), s.total_markets_visited ≤ bb.total_markets_visited) →
      ((⟨scenario_problem, 1, 1, 1/2, 1, 100, true, 2⟩ : AntColonyOptimizer).run_iteration
        30 [] (fun _ _ => 0)
        (⟨scenario_problem, 1, 1, 1/2, 1, 100, true, 2⟩ :
          AntColonyOptimizer).initial_state).best_solution = some bb) ∧
    (∀ bb r, ((⟨scenario_problem, 1, 1, 1/2, 1, 100, true, 2⟩ :
        AntColonyOptimizer).initial_state).best_solution = some bb →
      ((⟨scenario_problem, 1, 1, 1/2, 1, 100, true, 2⟩ : AntColonyOptimizer).run_iteration
        30 [] (fun _ _ => 0)
        (⟨scenario_problem, 1, 1, 1/2, 1, 100, true, 2⟩ :
          AntColonyOptimizer).initial_state).best_solution = some r →
      r = bb ∨ bb.total_markets_visited < r.total_markets_visited)) :=
  ⟨by decide,
   C7_strict_improvement_first_max ⟨scenario_problem, "hybrid", 2/5, 3/5⟩ 1 []
     ⟨scenario_problem, 1, 1, 1/2, 1, 100, true, 2⟩ 30 [] (fun _ _ => 0)
     (⟨scenario_problem, 1, 1, 1/2, 1, 100, true, 2⟩ : AntColonyOptimizer).initial_state
     (by decide)⟩

/-- C5: `AntColonyOptimizer.solve` returns the explicit infeasible empty
Solution with the day set if and only if no ant in any iteration produced a
feasible, non-trivial (nonempty-route) solution; otherwise it returns the
running best with the day stamped. -/
theorem C5_aco_empty_iff_no_feasible (a : AntColonyOptimizer) (oracle : ℕ → ℕ → ℕ → ℕ)
    (day : ℕ) (ex : List ℤ) :
    (((a.solve oracle day ex).route = [] ∧ (a.solve oracle day ex).is_feasible = false) ↔
      ∀ i < a.num_iterations, ∀ ant < a.num_ants,
        ¬ ((a.construct_solution (a.problem.stay_durations.getD (day - 1) 0) ex
            (oracle i ant)).is_feasible = true ∧
          (a.construct_solution (a.problem.stay_durations.getD (day - 1) 0) ex
            (oracle i ant)).route ≠ [])) ∧
    (a.solve oracle day ex).day = day ∧
    (∀ b, (a.run_all (a.problem.stay_durations.getD (day - 1) 0) ex oracle).best_solution =
      some b → a.solve oracle day ex = b.set_day day) ∧
    ((a.run_all (a.problem.stay_durations.getD (day - 1) 0) ex oracle).best_solution = none →
      a.solve oracle day ex = ⟨[], [], 0, 0, 0, false, day⟩) := by
  have hunfold : a.solve oracle day ex =
      match (a.run_all (a.problem.stay_durations.getD (day - 1) 0) ex oracle).best_solution with
      | some b => b.set_day day
      | none => ⟨[], [], 0, 0, 0, false, day⟩ := rfl
  have hni : (a.run_all (a.problem.stay_durations.getD (day - 1) 0) ex oracle).best_solution =
      none ↔ AcoState.best_solution a.initial_state = none ∧
      ∀ i ∈ List.range a.num_iterations,
        ((List.range a.num_ants).map (fun ant =>
          a.construct_solution (a.problem.stay_durations.getD (day - 1) 0) ex
            (oracle i ant))).filter (fun s => s.is_feasible) = [] :=
    fold_iterations_none_iff a _ ex oracle (List.range a.num_iterations) a.initial_state
  have hmem : (a.run_all (a.problem.stay_durations.getD (day - 1) 0) ex oracle).best_solution =
      none ∨ ∃ i ant, ant < a.num_ants ∧
      (a.run_all (a.problem.stay_durations.getD (day - 1) 0) ex oracle).best_solution =
        some (a.construct_solution (a.problem.stay_durations.getD (day - 1) 0) ex
          (oracle i ant)) ∧
      (a.construct_solution (a.problem.stay_durations.getD (day - 1) 0) ex
        (oracle i ant)).is_feasible = true :=
    fold_iterations_mem a _ ex oracle (List.range a.num_iterations) a.initial_state (Or.inl rfl)
  refine ⟨?_, ?_, ?_, ?_⟩
  · constructor
    · intro ⟨hroute, hfeas⟩
      cases hbest : (a.run_all (a.problem.stay_durations.getD (day - 1) 0) ex
          oracle).best_solution with
      | some b =>
        exfalso
        rcases hmem with h | ⟨i, ant, hant, h, hf⟩
        · rw [hbest] at h
          exact absurd h (by simp)
        · rw [hbest] at h
          have hb := Option.some.inj h
          have hsolve : a.solve oracle day ex = b.set_day day := by rw [hunfold, hbest]
          rw [hsolve, set_day_feasible, hb, hf] at hfeas
          exact absurd hfeas (by simp)
      | none =>
        obtain ⟨_, hall⟩ := hni.mp hbest
        intro i hi ant hant hcontra
        have hfil := hall i (List.mem_range.mpr hi)
        have hmm : a.construct_solution (a.problem.stay_durations.getD (day - 1) 0) ex
            (oracle i ant) ∈ (List.range a.num_ants).map (fun ant =>
              a.construct_solution (a.problem.stay_durations.getD (day - 1) 0) ex
                (oracle i ant)) :=
          List.mem_map.mpr ⟨ant, List.mem_range.mpr hant, rfl⟩
        have := List.filter_eq_nil_iff.mp hfil _ hmm
        simp only [hcontra.1] at this
        exact this trivial
    · intro hall
      have hbest : (a.run_all (a.problem.stay_durations.getD (day - 1) 0) ex
          oracle).best_solution = none := by
        refine hni.mpr ⟨rfl, fun i hi => List.filter_eq_nil_iff.mpr (fun s hs => ?_)⟩
        rcases List.mem_map.mp hs with ⟨ant, hant, hseq⟩
        intro hfeas
        rw [← hseq] at hfeas
        have hib := List.mem_range.mp hi
        have hanb := List.mem_range.mp hant
        refine hall i hib ant hanb ⟨?_, ?_⟩
        · simpa using hfeas
        · exact aco_construct_feasible_route a _ ex (oracle i ant) (by simpa using hfeas)
      rw [hunfold, hbest]
      exact ⟨rfl, rfl⟩
  · rcases aco_solve_cases a oracle day ex with h | ⟨i, ant, _, _, h⟩
    · rw [h]
    · rw [h, set_day_day]
  · intro b hb
    rw [hunfold, hb]
  · intro hb
    rw [hunfold, hb]

/-- Witness for C5: with every market excluded, every ant construction is
infeasible and `solve` returns the infeasible empty solution for day 1. -/
theorem C5_aco_empty_iff_no_feasible_witness :
    ((((⟨tight_window_problem, 1, 1, 1/2, 1, 100, true, 2⟩ : AntColonyOptimizer).solve
        (fun _ _ _ => 0) 1 [1]).route = [] ∧
      ((⟨tight_window_problem, 1, 1, 1/2, 1, 100, true, 2⟩ : AntColonyOptimizer).solve
        (fun _ _ _ => 0) 1 [1]).is_feasible = false) ↔
      ∀ i < (⟨tight_window_problem, 1, 1, 1/2, 1, 100, true, 2⟩ :
          AntColonyOptimizer).num_iterations,
        ∀ ant < (⟨tight_window_problem, 1, 1, 1/2, 1, 100, true, 2⟩ :
          AntColonyOptimizer).num_ants,
        ¬ (((⟨tight_window_problem, 1, 1, 1/2, 1, 100, true, 2⟩ :
              AntColonyOptimizer).construct_solution
              (tight_window_problem.stay_durations.getD 0 0) [1]
              ((fun _ _ _ => 0) i ant)).is_feasible = true ∧
          ((⟨tight_window_problem, 1, 1, 1/2, 1, 100, true, 2⟩ :
              AntColonyOptimizer).construct_solution
              (tight_window_problem.stay_durations.getD 0 0) [1]
              ((fun _ _ _ => 0) i ant)).route ≠ [])) ∧
    ((⟨tight_window_problem, 1, 1, 1/2, 1, 100, true, 2⟩ : AntColonyOptimizer).solve
      (fun _ _ _ => 0) 1 [1]).day = 1 ∧
    (∀ b, ((⟨tight_window_problem, 1, 1, 1/2, 1, 100, true, 2⟩ :
        AntColonyOptimizer).run_all (tight_window_problem.stay_durations.getD 0 0) [1]
          (fun _ _ _ => 0)).best_solution = some b →
      (⟨tight_window_problem, 1, 1, 1/2, 1, 100, true, 2⟩ : AntColonyOptimizer).solve
        (fun _ _ _ => 0) 1 [1] = b.set_day 1) ∧
    (((⟨tight_window_problem, 1, 1, 1/2, 1, 100, true, 2⟩ :
        AntColonyOptimizer).run_all (tight_window_problem.stay_durations.getD 0 0) [1]
          (fun _ _ _ => 0)).best_solution = none →
      (⟨tight_window_problem, 1, 1, 1/2, 1, 100, true, 2⟩ : AntColonyOptimizer).solve
        (fun _ _ _ => 0) 1 [1] = ⟨[], [], 0, 0, 0, false, 1⟩) :=
  C5_aco_empty_iff_no_feasible ⟨tight_window_problem, 1, 1, 1/2, 1, 100, true, 2⟩
    (fun _ _ _ => 0) 1 [1]

/-- Witness for C3: with fuel `1 + 1` on the section-8 scenario, route `[A]`
at time 600 and the selected candidate B failing the latest-arrival check for
every travel-time value the table can return, the greedy loop returns the
route unchanged. -/
theorem C3_nearest_terminates_route_witness :
    GreedyOptimizer.construct_loop ⟨scenario_problem, "nearest", 2/5, 3/5⟩ 30 []
      (1 + 1) [1] [600] 1 600 = ([1], [600]) :=
  C3_nearest_terminates_route.2.1 ⟨scenario_problem, "nearest", 2/5, 3/5⟩ 30 [] 1 [1] [600]
    1 600 ⟨2, 600, 640⟩ (by decide)
    (fun tt htt => by
      have h5 : (⟨scenario_problem, "nearest", 2/5, 3/5⟩ :
          GreedyOptimizer).problem.get_travel_time 1 (Market.id ⟨2, 600, 640⟩) =
            some (5 : ℚ) := by decide
      have htt5 := Option.some.inj (h5.symm.trans htt)
      rw [← htt5]
      decide)

theorem findIdx?_lt_length {α : Type} (p : α → Bool) :
    ∀ (l : List α) (k : ℕ), l.findIdx? p = some k → k < l.length := by
  intro l
  induction l with
  | nil => intro k h; simp [List.findIdx?] at h
  | cons a l ih =>
    intro k h
    rw [List.findIdx?] at h
    by_cases hp : p a
    · simp [hp] at h
      subst h
      simp
    · simp [hp] at h
      obtain ⟨a', ha', hk⟩ := h
      have := ih a' ha'
      simp [List.length_cons]
      omega

theorem get_market_index_lt (p : ProblemInstance) (hn : 0 < p.markets.length) (x : ℤ) :
    p.get_market_index x < p.markets.length := by
  rw [ProblemInstance.get_market_index]
  cases h : p.markets.findIdx? (fun m => m.id = x) with
  | none => exact hn
  | some k => exact findIdx?_lt_length _ _ k h

theorem set_at_length {α : Type} :
    ∀ (l : List α) (n : ℕ) (f : α → α), (set_at l n f).length = l.length := by
  intro l
  induction l with
  | nil => intro n f; rfl
  | cons a l ih =>
    intro n f
    cases n with
    | zero => rfl
    | succ n' => simp [set_at, ih]

theorem set_at_mem {α : Type} :
    ∀ (l : List α) (n : ℕ) (f : α → α) (x : α),
      x ∈ set_at l n f → x ∈ l ∨ ∃ a ∈ l, x = f a := by
  intro l
  induction l with
  | nil => intro n f x h; exact absurd h (by simp [set_at])
  | cons a l ih =>
    intro n f x h
    cases n with
    | zero =>
      rcases List.mem_cons.mp h with h1 | h1
      · exact Or.inr ⟨a, List.mem_cons_self a l, h1⟩
      · exact Or.inl (List.mem_cons_of_mem _ h1)
    | succ n' =>
      rcases List.mem_cons.mp h with h1 | h1
      · exact Or.inl (h1 ▸ List.mem_cons_self a l)
      · rcases ih n' f x h1 with h2 | ⟨b, hb, hx⟩
        · exact Or.inl (List.mem_cons_of_mem _ h2)
        · exact Or.inr ⟨b, List.mem_cons_of_mem _ hb, hx⟩

theorem set_at_getD {α : Type} :
    ∀ (l : List α) (n : ℕ) (f : α → α) (k : ℕ) (dflt : α),
      (set_at l n f).getD k dflt =
        if n = k ∧ k < l.length then f (l.getD k dflt) else l.getD k dflt := by
  intro l
  induction l with
  | nil => intro n f k dflt; simp [set_at]
  | cons a l ih =>
    intro n f k dflt
    cases n with
    | zero =>
      cases k with
      | zero => simp [set_at]
      | succ k' => simp [set_at]
    | succ n' =>
      cases k with
      | zero => simp [set_at]
      | succ k' =>
        have hc : (n' + 1 = k' + 1 ∧ k' + 1 < (a :: l).length) ↔
            (n' = k' ∧ k' < l.length) := by
          rw [List.length_cons]
          omega
        show (set_at l n' f).getD k' dflt = _
        rw [if_congr hc rfl rfl, ih]
        rfl

theorem matrix_entry_add_entry (m : List (List ℚ)) (n i j i' j' : ℕ) (d : ℚ)
    (hs : matrix_shape m n) (hi : i < n) (hj : j < n) :
    matrix_entry (add_entry m i j d) i' j' =
      matrix_entry m i' j' + if i = i' ∧ j = j' then d else 0 := by
  obtain ⟨hlen, hrows⟩ := hs
  rw [matrix_entry, matrix_entry, add_entry, set_at_getD]
  by_cases hii : i = i'
  · subst hii
    have hilt : i < m.length := hlen ▸ hi
    rw [if_pos ⟨rfl, hilt⟩, set_at_getD]
    have hrow_mem : m.getD i [] ∈ m := by
      rw [List.getD_eq_getElem m [] hilt]
      exact List.getElem_mem hilt
    have hrow : (m.getD i []).length = n := hrows _ hrow_mem
    by_cases hjj : j = j'
    · subst hjj
      rw [if_pos ⟨rfl, hrow ▸ hj⟩, if_pos ⟨rfl, rfl⟩]
    · rw [if_neg (fun h => hjj h.1), if_neg (fun h => hjj h.2), add_zero]
  · rw [if_neg (fun h => hii h.1), if_neg (fun h => hii h.1), add_zero]

theorem add_entry_shape (m : List (List ℚ)) (n i j : ℕ) (d : ℚ)
    (hs : matrix_shape m n) : matrix_shape (add_entry m i j d) n := by
  obtain ⟨hlen, hrows⟩ := hs
  constructor
  · rw [add_entry, set_at_length]
    exact hlen
  · intro row hr
    rcases set_at_mem m i _ row hr with h | ⟨r, hrm, hreq⟩
    · exact hrows row h
    · rw [hreq, set_at_length]
      exact hrows r hrm

theorem evaporate_shape (e : ℚ) (m : List (List ℚ)) (n : ℕ) (hs : matrix_shape m n) :
    matrix_shape (evaporate_matrix e m) n := by
  obtain ⟨hlen, hrows⟩ := hs
  constructor
  · rw [evaporate_matrix, List.length_map]
    exact hlen
  · intro row hr
    rw [evaporate_matrix] at hr
    obtain ⟨r, hrm, hreq⟩ := List.mem_map.mp hr
    rw [← hreq, List.length_map]
    exact hrows r hrm

theorem foldl_add_entry_shape (n : ℕ) (d : ℚ) :
    ∀ (ps : List (ℕ × ℕ)) (m : List (List ℚ)), matrix_shape m n →
      matrix_shape (ps.foldl (fun acc pq => add_entry acc pq.1 pq.2 d) m) n := by
  intro ps
  induction ps with
  | nil => intro m hs; exact hs
  | cons pq ps ih =>
    intro m hs
    exact ih _ (add_entry_shape m n pq.1 pq.2 d hs)

theorem deposit_route_eq (p : ProblemInstance) (m : List (List ℚ)) (route : List ℤ)
    (d : ℚ) :
    deposit_route p m route d =
      (edge_pairs p route).foldl (fun acc pq => add_entry acc pq.1 pq.2 d) m := by
  rw [deposit_route, edge_pairs, List.foldl_map]

theorem deposit_route_shape (p : ProblemInstance) (m : List (List ℚ)) (route : List ℤ)
    (d : ℚ) (n : ℕ) (hs : matrix_shape m n) : matrix_shape (deposit_route p m route d) n := by
  rw [deposit_route_eq]
  exact foldl_add_entry_shape n d _ m hs

theorem deposit_ants_shape (a : AntColonyOptimizer) (n : ℕ) :
    ∀ (sols : List Solution) (m : List (List ℚ)), matrix_shape m n →
      matrix_shape (a.deposit_ants m sols) n := by
  intro sols
  induction sols with
  | nil => intro m hs; exact hs
  | cons s sols ih =>
    intro m hs
    have hstep : a.deposit_ants m (s :: sols) = a.deposit_ants
        (if s.is_feasible ∧ 2 ≤ s.route.length then
          deposit_route a.problem m s.route
            (a.Q * (s.total_markets_visited : ℚ) / (a.problem.markets.length : ℚ))
        else m) sols := rfl
    rw [hstep]
    by_cases hc : s.is_feasible ∧ 2 ≤ s.route.length
    · rw [if_pos hc]
      exact ih _ (deposit_route_shape _ _ _ _ n hs)
    · rw [if_neg hc]
      exact ih _ hs

theorem deposit_elite_shape (a : AntColonyOptimizer) (best : Option Solution)
    (m : List (List ℚ)) (n : ℕ) (hs : matrix_shape m n) :
    matrix_shape (a.deposit_elite m best) n := by
  cases best with
  | none => exact hs
  | some b =>
    simp only [AntColonyOptimizer.deposit_elite]
    by_cases hc : a.use_elite ∧ 1 < b.route.length
    · rw [if_pos hc]
      exact deposit_route_shape _ _ _ _ n hs
    · rw [if_neg hc]
      exact hs

theorem update_pheromones_shape (a : AntColonyOptimizer) (pher : List (List ℚ))
    (sols : List Solution) (best : Option Solution) (n : ℕ)
    (hs : matrix_shape pher n) :
    matrix_shape (a.update_pheromones pher sols best) n :=
  deposit_elite_shape a best _ n
    (deposit_ants_shape a n sols _ (evaporate_shape a.evaporation pher n hs))

theorem matrix_entry_evaporate (e : ℚ) (m : List (List ℚ)) (i j : ℕ) :
    matrix_entry (evaporate_matrix e m) i j = matrix_entry m i j * (1 - e) := by
  rw [matrix_entry, matrix_entry, evaporate_matrix]
  have h1 : (m.map (fun row => row.map (fun x => x * (1 - e)))).getD i [] =
      (m.getD i []).map (fun x => x * (1 - e)) := List.getD_map m [] _
  rw [h1]
  have h2 : ((m.getD i []).map (fun x => x * (1 - e))).getD j 0 =
      ((m.getD i []).map (fun x => x * (1 - e))).getD j (0 * (1 - e)) :=
    congrArg (List.getD ((m.getD i []).map (fun x => x * (1 - e))) j) (zero_mul (1 - e)).symm
  rw [h2]
  exact List.getD_map _ _ _

theorem foldl_add_entry_entry (n : ℕ) (d : ℚ) (i j : ℕ) (hi : i < n) (hj : j < n) :
    ∀ (ps : List (ℕ × ℕ)) (m : List (List ℚ)), matrix_shape m n →
      (∀ pq ∈ ps, pq.1 < n ∧ pq.2 < n) →
      matrix_entry (ps.foldl (fun acc pq => add_entry acc pq.1 pq.2 d) m) i j =
        matrix_entry m i j + d * (ps.count (i, j) : ℚ) := by
  intro ps
  induction ps with
  | nil => intro m hs hps; simp
  | cons pq ps ih =>
    intro m hs hps
    rw [List.foldl_cons,
      ih _ (add_entry_shape m n pq.1 pq.2 d hs) (fun q hq => hps q (List.mem_cons_of_mem _ hq)),
      matrix_entry_add_entry m n pq.1 pq.2 i j d hs (hps pq (List.mem_cons_self _ _)).1
        (hps pq (List.mem_cons_self _ _)).2,
      List.count_cons]
    by_cases hpq : pq = (i, j)
    · rw [if_pos ⟨congrArg Prod.fst hpq, congrArg Prod.snd hpq⟩,
        if_pos (by rw [hpq]; exact beq_self_eq_true _)]
      push_cast
      ring
    · rw [if_neg (fun h => hpq (Prod.ext_iff.mpr h)),
        if_neg (fun h => hpq (beq_iff_eq.mp h))]
      push_cast
      ring

theorem edge_pairs_lt (p : ProblemInstance) (route : List ℤ)
    (hn : 0 < p.markets.length) :
    ∀ pq ∈ edge_pairs p route, pq.1 < p.markets.length ∧ pq.2 < p.markets.length := by
  intro pq hpq
  rw [edge_pairs] at hpq
  obtain ⟨ab, _, heq⟩ := List.mem_map.mp hpq
  rw [← heq]
  exact ⟨get_market_index_lt p hn _, get_market_index_lt p hn _⟩

theorem deposit_route_entry (p : ProblemInstance) (m : List (List ℚ)) (route : List ℤ)
    (d : ℚ) (i j : ℕ) (hs : matrix_shape m p.markets.length)
    (hn : 0 < p.markets.length) (hi : i < p.markets.length) (hj : j < p.markets.length) :
    matrix_entry (deposit_route p m route d) i j =
      matrix_entry m i j + d * ((edge_pairs p route).count (i, j) : ℚ) := by
  rw [deposit_route_eq]
  exact foldl_add_entry_entry _ d i j hi hj _ m hs (edge_pairs_lt p route hn)

theorem deposit_ants_entry (a : AntColonyOptimizer) (i j : ℕ)
    (hn : 0 < a.problem.markets.length) (hi : i < a.problem.markets.length)
    (hj : j < a.problem.markets.length) :
    ∀ (sols : List Solution) (m : List (List ℚ)),
      matrix_shape m a.problem.markets.length →
      matrix_entry (a.deposit_ants m sols) i j =
        matrix_entry m i j + ant_deposit_sum a sols i j := by
  intro sols
  induction sols with
  | nil =>
    intro m hs
    simp [AntColonyOptimizer.deposit_ants, ant_deposit_sum]
  | cons s sols ih =>
    intro m hs
    have hstep : a.deposit_ants m (s :: sols) = a.deposit_ants
        (if s.is_feasible ∧ 2 ≤ s.route.length then
          deposit_route a.problem m s.route
            (a.Q * (s.total_markets_visited : ℚ) / (a.problem.markets.length : ℚ))
        else m) sols := rfl
    rw [hstep]
    by_cases hc : s.is_feasible ∧ 2 ≤ s.route.length
    · rw [if_pos hc, ih _ (deposit_route_shape _ _ _ _ _ hs),
        deposit_route_entry a.problem m s.route _ i j hs hn hi hj]
      have hsum : ant_deposit_sum a (s :: sols) i j =
          (a.Q * (s.total_markets_visited : ℚ) / (a.problem.markets.length : ℚ)) *
            ((edge_pairs a.problem s.route).count (i, j) : ℚ) +
          ant_deposit_sum a sols i j := by
        rw [ant_deposit_sum, ant_deposit_sum, List.filter_cons, if_pos (decide_eq_true hc),
          List.map_cons, List.sum_cons]
      rw [hsum]
      ring
    · rw [if_neg hc, ih m hs]
      have hsum : ant_deposit_sum a (s :: sols) i j = ant_deposit_sum a sols i j := by
        rw [ant_deposit_sum, ant_deposit_sum, List.filter_cons,
          if_neg (by simpa using hc)]
      rw [hsum]

theorem deposit_elite_entry (a : AntColonyOptimizer) (best : Option Solution)
    (m : List (List ℚ)) (i j : ℕ) (hs : matrix_shape m a.problem.markets.length)
    (hn : 0 < a.problem.markets.length) (hi : i < a.problem.markets.length)
    (hj : j < a.problem.markets.length) :
    matrix_entry (a.deposit_elite m best) i j =
      matrix_entry m i j + elite_deposit_sum a best i j := by
  cases best with
  | none => simp [AntColonyOptimizer.deposit_elite, elite_deposit_sum]
  | some b =>
    simp only [AntColonyOptimizer.deposit_elite, elite_deposit_sum]
    by_cases hc : a.use_elite ∧ 1 < b.route.length
    · rw [if_pos hc, if_pos hc, deposit_route_entry a.problem m b.route _ i j hs hn hi hj]
    · rw [if_neg hc, if_neg hc, add_zero]

/-- C4: `_update_pheromones` evaporates first (the update literally factors
as elite-deposit after ant-deposits after evaporation), and each matrix entry
`(i, j)` afterwards equals its old value times `1 - evaporation`, plus
`Q * visitedCount / totalLocations` for every traversal of edge `(i, j)` by a
feasible ant route of at least two stops (deposits accumulating over ants),
plus — when `use_elite` is set and the running best has at least two stops —
`Q * bestVisitedCount * eliteWeight / totalLocations` per traversal of
`(i, j)` by the best route. -/
theorem C4_pheromone_update_entry (a : AntColonyOptimizer) (pher : List (List ℚ))
    (solutions : List Solution) (best : Option Solution) (i j : ℕ)
    (hs : matrix_shape pher a.problem.markets.length)
    (hn : 0 < a.problem.markets.length)
    (hi : i < a.problem.markets.length) (hj : j < a.problem.markets.length) :
    a.update_pheromones pher solutions best =
      a.deposit_elite (a.deposit_ants (evaporate_matrix a.evaporation pher) solutions) best ∧
    matrix_entry (a.update_pheromones pher solutions best) i j =
      matrix_entry pher i j * (1 - a.evaporation) +
        ant_deposit_sum a solutions i j + elite_deposit_sum a best i j := by
  refine ⟨rfl, ?_⟩
  rw [AntColonyOptimizer.update_pheromones,
    deposit_elite_entry a best _ i j
      (deposit_ants_shape a _ solutions _ (evaporate_shape a.evaporation pher _ hs)) hn hi hj,
    deposit_ants_entry a i j hn hi hj solutions _ (evaporate_shape a.evaporation pher _ hs),
    matrix_entry_evaporate]

/-- Witness for C4 on the section-8 scenario with one ant that walked
`A -> C` and the same route as elite best: entry `(0, 2)` of the update. -/
theorem C4_pheromone_update_entry_witness :
    matrix_shape [[1, 1, 1], [1, 1, 1], [1, 1, 1]]
      (⟨scenario_problem, 1, 1, 1/2, 1, 1, true, 2⟩ :
        AntColonyOptimizer).problem.markets.length ∧
    0 < scenario_problem.markets.length ∧
    matrix_entry
      ((⟨scenario_problem, 1, 1, 1/2, 1, 1, true, 2⟩ :
          AntColonyOptimizer).update_pheromones [[1, 1, 1], [1, 1, 1], [1, 1, 1]]
        [⟨[1, 3], [600, 650], 2, 20, 80, true, 1⟩]
        (some ⟨[1, 3], [600, 650], 2, 20, 80, true, 1⟩)) 0 2 =
      matrix_entry [[1, 1, 1], [1, 1, 1], [1, 1, 1]] 0 2 *
          (1 - (⟨scenario_problem, 1, 1, 1/2, 1, 1, true, 2⟩ :
            AntColonyOptimizer).evaporation) +
        ant_deposit_sum ⟨scenario_problem, 1, 1, 1/2, 1, 1, true, 2⟩
          [⟨[1, 3], [600, 650], 2, 20, 80, true, 1⟩] 0 2 +
        elite_deposit_sum ⟨scenario_problem, 1, 1, 1/2, 1, 1, true, 2⟩
          (some ⟨[1, 3], [600, 650], 2, 20, 80, true, 1⟩) 0 2 :=
  ⟨by decide, by decide,
   (C4_pheromone_update_entry ⟨scenario_problem, 1, 1, 1/2, 1, 1, true, 2⟩
      [[1, 1, 1], [1, 1, 1], [1, 1, 1]]
      [⟨[1, 3], [600, 650], 2, 20, 80, true, 1⟩]
      (some ⟨[1, 3], [600, 650], 2, 20, 80, true, 1⟩) 0 2
      (by decide) (by decide) (by decide) (by decide)).2⟩

theorem add_entry_nonneg (m : List (List ℚ)) (i j : ℕ) (d : ℚ) (hd : 0 ≤ d)
    (hm : matrix_nonneg m) : matrix_nonneg (add_entry m i j d) := by
  intro row hr
  rcases set_at_mem m i _ row hr with h | ⟨r, hrm, hreq⟩
  · exact hm row h
  · intro x hx
    rw [hreq] at hx
    rcases set_at_mem r j _ x hx with h2 | ⟨y, hy, hxy⟩
    · exact hm r hrm x h2
    · rw [hxy]
      exact add_nonneg (hm r hrm y hy) hd

theorem evaporate_nonneg (e : ℚ) (m : List (List ℚ)) (he : e ≤ 1)
    (hm : matrix_nonneg m) : matrix_nonneg (evaporate_matrix e m) := by
  intro row hr
  rw [evaporate_matrix] at hr
  obtain ⟨r, hrm, hreq⟩ := List.mem_map.mp hr
  intro x hx
  rw [← hreq] at hx
  obtain ⟨y, hy, hxy⟩ := List.mem_map.mp hx
  rw [← hxy]
  exact mul_nonneg (hm r hrm y hy) (by linarith)

theorem foldl_add_entry_nonneg (d : ℚ) (hd : 0 ≤ d) :
    ∀ (ps : List (ℕ × ℕ)) (m : List (List ℚ)), matrix_nonneg m →
      matrix_nonneg (ps.foldl (fun acc pq => add_entry acc pq.1 pq.2 d) m) := by
  intro ps
  induction ps with
  | nil => intro m hm; exact hm
  | cons pq ps ih =>
    intro m hm
    exact ih _ (add_entry_nonneg m pq.1 pq.2 d hd hm)

theorem deposit_route_nonneg (p : ProblemInstance) (m : List (List ℚ)) (route : List ℤ)
    (d : ℚ) (hd : 0 ≤ d) (hm : matrix_nonneg m) :
    matrix_nonneg (deposit_route p m route d) := by
  rw [deposit_route_eq]
  exact foldl_add_entry_nonneg d hd _ m hm

theorem deposit_ants_nonneg (a : AntColonyOptimizer) (hq : 0 ≤ a.Q) :
    ∀ (sols : List Solution) (m : List (List ℚ)), matrix_nonneg m →
      matrix_nonneg (a.deposit_ants m sols) := by
  intro sols
  induction sols with
  | nil => intro m hm; exact hm
  | cons s sols ih =>
    intro m hm
    have hstep : a.deposit_ants m (s :: sols) = a.deposit_ants
        (if s.is_feasible ∧ 2 ≤ s.route.length then
          deposit_route a.problem m s.route
            (a.Q * (s.total_markets_visited : ℚ) / (a.problem.markets.length : ℚ))
        else m) sols := rfl
    rw [hstep]
    by_cases hc : s.is_feasible ∧ 2 ≤ s.route.length
    · rw [if_pos hc]
      exact ih _ (deposit_route_nonneg _ _ _ _
        (div_nonneg (mul_nonneg hq (Nat.cast_nonneg _)) (Nat.cast_nonneg _)) hm)
    · rw [if_neg hc]
      exact ih _ hm

theorem deposit_elite_nonneg (a : AntColonyOptimizer) (best : Option Solution)
    (m : List (List ℚ)) (hq : 0 ≤ a.Q) (hew : 0 ≤ a.elite_weight)
    (hm : matrix_nonneg m) : matrix_nonneg (a.deposit_elite m best) := by
  cases best with
  | none => exact hm
  | some b =>
    simp only [AntColonyOptimizer.deposit_elite]
    by_cases hc : a.use_elite ∧ 1 < b.route.length
    · rw [if_pos hc]
      exact deposit_route_nonneg _ _ _ _
        (div_nonneg (mul_nonneg (mul_nonneg hq (Nat.cast_nonneg _)) hew) (Nat.cast_nonneg _)) hm
    · rw [if_neg hc]
      exact hm

theorem update_pheromones_nonneg (a : AntColonyOptimizer) (pher : List (List ℚ))
    (sols : List Solution) (best : Option Solution) (he : a.evaporation ≤ 1)
    (hq : 0 ≤ a.Q) (hew : 0 ≤ a.elite_weight) (hm : matrix_nonneg pher) :
    matrix_nonneg (a.update_pheromones pher sols best) :=
  deposit_elite_nonneg a best _ hq hew
    (deposit_ants_nonneg a hq sols _ (evaporate_nonneg a.evaporation pher he hm))

theorem update_iter_invariant (a : AntColonyOptimizer) (he : a.evaporation ≤ 1)
    (hq : 0 ≤ a.Q) (hew : 0 ≤ a.elite_weight) :
    ∀ (steps : List (List Solution × Option Solution)) (m : List (List ℚ)),
      matrix_shape m a.problem.markets.length → matrix_nonneg m →
      matrix_shape (steps.foldl (fun acc st => a.update_pheromones acc st.1 st.2) m)
          a.problem.markets.length ∧
        matrix_nonneg (steps.foldl (fun acc st => a.update_pheromones acc st.1 st.2) m) := by
  intro steps
  induction steps with
  | nil => intro m hs hm; exact ⟨hs, hm⟩
  | cons st steps ih =>
    intro m hs hm
    exact ih _ (update_pheromones_shape a m st.1 st.2 _ hs)
      (update_pheromones_nonneg a m st.1 st.2 he hq hew hm)

theorem initial_state_matrix (a : AntColonyOptimizer) (hpi : 0 ≤ a.pheromone_init) :
    matrix_shape a.initial_state.pheromones a.problem.markets.length ∧
      matrix_nonneg a.initial_state.pheromones := by
  refine ⟨⟨List.length_replicate _ _, ?_⟩, ?_⟩
  · intro row hr
    rw [List.eq_of_mem_replicate hr]
    exact List.length_replicate _ _
  · intro row hr x hx
    rw [List.eq_of_mem_replicate hr] at hx
    rw [List.eq_of_mem_replicate hx]
    exact hpi

/-- C8: with evaporation in `[0, 1]`, non-negative `Q`, elite weight and
initial pheromone level, the initial matrix is a non-negative `n x n` matrix,
every entry stays non-negative and the shape stays `n x n` after any number
of pheromone updates, and each update applies the multiplicative evaporation
before any additive deposit (the update factors as elite-deposit after
ant-deposits after evaporation). -/
theorem C8_pheromone_invariants (a : AntColonyOptimizer)
    (h0 : 0 ≤ a.evaporation) (h1 : a.evaporation ≤ 1) (hq : 0 ≤ a.Q)
    (hew : 0 ≤ a.elite_weight) (hpi : 0 ≤ a.pheromone_init) :
    (matrix_shape a.initial_state.pheromones a.problem.markets.length ∧
      matrix_nonneg a.initial_state.pheromones) ∧
    (∀ (steps : List (List Solution × Option Solution)),
      matrix_shape
          (steps.foldl (fun acc st => a.update_pheromones acc st.1 st.2)
            a.initial_state.pheromones) a.problem.markets.length ∧
        matrix_nonneg
          (steps.foldl (fun acc st => a.update_pheromones acc st.1 st.2)
            a.initial_state.pheromones)) ∧
    (∀ (pher : List (List ℚ)) (sols : List Solution) (best : Option Solution),
      a.update_pheromones pher sols best =
        a.deposit_elite (a.deposit_ants (evaporate_matrix a.evaporation pher) sols) best) := by
  obtain ⟨hs0, hm0⟩ := initial_state_matrix a hpi
  exact ⟨⟨hs0, hm0⟩,
    fun steps => update_iter_invariant a h1 hq hew steps _ hs0 hm0,
    fun pher sols best => rfl⟩

/-- Witness for C8 on the section-8 scenario: one update step with one ant
route `A -> C` also acting as elite best keeps the matrix a non-negative
`3 x 3` matrix. -/
theorem C8_pheromone_invariants_witness :
    (0 : ℚ) ≤ 1/2 ∧ (1/2 : ℚ) ≤ 1 ∧
    matrix_shape
        ([([⟨[1, 3], [600, 650], 2, 20, 80, true, 1⟩],
            some ⟨[1, 3], [600, 650], 2, 20, 80, true, 1⟩)].foldl
          (fun acc st =>
            (⟨scenario_problem, 1, 1, 1/2, 1, 1, true, 2⟩ :
              AntColonyOptimizer).update_pheromones acc st.1 st.2)
          (⟨scenario_problem, 1, 1, 1/2, 1, 1, true, 2⟩ :
            AntColonyOptimizer).initial_state.pheromones)
        (⟨scenario_problem, 1, 1, 1/2, 1, 1, true, 2⟩ :
          AntColonyOptimizer).problem.markets.length ∧
      matrix_nonneg
        ([([⟨[1, 3], [600, 650], 2, 20, 80, true, 1⟩],
            some ⟨[1, 3], [600, 650], 2, 20, 80, true, 1⟩)].foldl
          (fun acc st =>
            (⟨scenario_problem, 1, 1, 1/2, 1, 1, true, 2⟩ :
              AntColonyOptimizer).update_pheromones acc st.1 st.2)
          (⟨scenario_problem, 1, 1, 1/2, 1, 1, true, 2⟩ :
            AntColonyOptimizer).initial_state.pheromones) :=
  ⟨by decide, by decide,
   (C8_pheromone_invariants ⟨scenario_problem, 1, 1, 1/2, 1, 1, true, 2⟩
      (by decide) (by decide) (by decide) (by decide) (by decide)).2.1
     [([⟨[1, 3], [600, 650], 2, 20, 80, true, 1⟩],
       some ⟨[1, 3], [600, 650], 2, 20, 80, true, 1⟩)]⟩

theorem countP_mem_of_nodup :
    ∀ (ids : List ℤ) (ex : List ℤ), ids.Nodup → ex.Nodup → (∀ x ∈ ex, x ∈ ids) →
      ids.countP (fun x => decide (x ∈ ex)) = ex.length := by
  intro ids
  induction ids with
  | nil =>
    intro ex _ _ hsub
    have hex : ex = [] := by
      cases ex with
      | nil => rfl
      | cons y ys => exact absurd (hsub y (List.mem_cons_self _ _)) (by simp)
    rw [hex]
    rfl
  | cons a ids ih =>
    intro ex hnids hnex hsub
    have hna : a ∉ ids := (List.nodup_cons.mp hnids).1
    have hnids' : ids.Nodup := (List.nodup_cons.mp hnids).2
    rw [List.countP_cons]
    by_cases hmem : a ∈ ex
    · have hcong : ids.countP (fun x => decide (x ∈ ex)) =
          ids.countP (fun x => decide (x ∈ ex.erase a)) := by
        apply List.countP_congr
        intro x hx
        have hxa : x ≠ a := fun h => hna (h ▸ hx)
        simp [hnex.mem_erase_iff, hxa]
      have hsub' : ∀ x ∈ ex.erase a, x ∈ ids := by
        intro x hx
        obtain ⟨hxa, hxe⟩ := hnex.mem_erase_iff.mp hx
        rcases List.mem_cons.mp (hsub x hxe) with h | h
        · exact absurd h hxa
        · exact h
      rw [hcong, ih (ex.erase a) hnids' (hnex.erase a) hsub',
        List.length_erase_of_mem hmem, if_pos (decide_eq_true hmem)]
      have hpos : 0 < ex.length := List.length_pos_of_mem hmem
      omega
    · have hsub' : ∀ x ∈ ex, x ∈ ids := by
        intro x hx
        rcases List.mem_cons.mp (hsub x hx) with h | h
        · exact absurd (h ▸ hx) hmem
        · exact h
      rw [ih ex hnids' hnex hsub', if_neg (by simpa using hmem)]
      omega

theorem countP_mem_add_not_mem {α : Type} (pr : α → Prop) [DecidablePred pr] :
    ∀ l : List α,
      l.countP (fun x => decide (pr x)) + l.countP (fun x => decide (¬ pr x)) = l.length := by
  intro l
  induction l with
  | nil => rfl
  | cons a l ih =>
    rw [List.countP_cons, List.countP_cons, List.length_cons]
    by_cases h : pr a
    · rw [if_pos (decide_eq_true h), if_neg (by simpa using h)]
      omega
    · rw [if_neg (by simpa using h), if_pos (decide_eq_true h)]
      omega

theorem run_days_fold_inv (p : ProblemInstance) (engine : ℕ → List ℤ → Solution)
    (hc : ∀ d ex, (engine d ex).route.Nodup ∧ (∀ x ∈ (engine d ex).route, x ∉ ex) ∧
      (engine d ex).total_markets_visited = (engine d ex).route.length ∧
      (∀ x ∈ (engine d ex).route, ∃ m ∈ p.markets, m.id = x)) :
    ∀ (ds : List ℕ) (acc : List Solution × List ℤ),
      acc.2.Nodup →
      (∀ x ∈ acc.2, ∃ m ∈ p.markets, m.id = x) →
      (acc.1.map (fun s => s.total_markets_visited)).sum = acc.2.length →
      (∀ s ∈ acc.1, ∀ x ∈ s.route, x ∈ acc.2) →
      List.Pairwise (fun s t => ∀ x ∈ s.route, x ∉ t.route) acc.1 →
      (ds.foldl (fun acc d =>
          (acc.1 ++ [engine (d + 1) acc.2], acc.2 ++ (engine (d + 1) acc.2).route)) acc).2.Nodup ∧
      (∀ x ∈ (ds.foldl (fun acc d =>
          (acc.1 ++ [engine (d + 1) acc.2], acc.2 ++ (engine (d + 1) acc.2).route)) acc).2,
        ∃ m ∈ p.markets, m.id = x) ∧
      ((ds.foldl (fun acc d =>
          (acc.1 ++ [engine (d + 1) acc.2], acc.2 ++ (engine (d + 1) acc.2).route)) acc).1.map
            (fun s => s.total_markets_visited)).sum =
        (ds.foldl (fun acc d =>
          (acc.1 ++ [engine (d + 1) acc.2], acc.2 ++ (engine (d + 1) acc.2).route)) acc).2.length ∧
      (∀ s ∈ (ds.foldl (fun acc d =>
          (acc.1 ++ [engine (d + 1) acc.2], acc.2 ++ (engine (d + 1) acc.2).route)) acc).1,
        ∀ x ∈ s.route, x ∈ (ds.foldl (fun acc d =>
          (acc.1 ++ [engine (d + 1) acc.2], acc.2 ++ (engine (d + 1) acc.2).route)) acc).2) ∧
      List.Pairwise (fun s t => ∀ x ∈ s.route, x ∉ t.route)
        (ds.foldl (fun acc d =>
          (acc.1 ++ [engine (d + 1) acc.2], acc.2 ++ (engine (d + 1) acc.2).route)) acc).1 := by
  intro ds
  induction ds with
  | nil =>
    intro acc h1 h2 h3 h4 h5
    exact ⟨h1, h2, h3, h4, h5⟩
  | cons d ds ih =>
    intro acc h1 h2 h3 h4 h5
    rw [List.foldl_cons]
    obtain ⟨hnd, hdis, hvis, hsubm⟩ := hc (d + 1) acc.2
    apply ih
    · rw [List.nodup_append]
      exact ⟨h1, hnd, fun x hx1 hx2 => hdis x hx2 hx1⟩
    · intro x hx
      rcases List.mem_append.mp hx with h | h
      · exact h2 x h
      · exact hsubm x h
    · show ((acc.1 ++ [engine (d + 1) acc.2]).map (fun s => s.total_markets_visited)).sum =
        (acc.2 ++ (engine (d + 1) acc.2).route).length
      rw [List.map_append, List.sum_append, List.length_append, h3, List.map_singleton,
        List.sum_singleton, hvis]
    · intro s hs x hx
      rcases List.mem_append.mp hs with h | h
      · exact List.mem_append_left _ (h4 s h x hx)
      · rw [List.mem_singleton.mp h] at hx
        exact List.mem_append_right _ hx
    · show List.Pairwise _ (acc.1 ++ [engine (d + 1) acc.2])
      rw [List.pairwise_append]
      refine ⟨h5, List.pairwise_singleton _ _, ?_⟩
      intro s hs t ht x hx
      rw [List.mem_singleton.mp ht]
      intro hx_sol
      exact hdis x hx_sol (h4 s hs x hx)

/-- C2: for the day orchestrator of `main.py` — days `1..num_days` in order,
each day's engine call (either engine) receiving the union of all earlier
days' routes as exclusion set — no location id appears in more than one day's
route, the per-day visited counts sum to `total_markets_visited`, and that
total equals the number of locations minus the length of the unvisited list
(assuming the instance's market ids are distinct). -/
theorem C2_multi_day_exclusivity (p : ProblemInstance) (engine : ℕ → List ℤ → Solution)
    (g : GreedyOptimizer) (a : AntColonyOptimizer) (oracle : ℕ → ℕ → ℕ → ℕ)
    (hg : g.problem = p) (ha : a.problem = p)
    (heng : ∀ d ex, engine d ex = g.solve d ex ∨ engine d ex = a.solve oracle d ex)
    (hids : (p.markets.map Market.id).Nodup) :
    List.Pairwise (fun s t => ∀ x ∈ s.route, x ∉ t.route)
      (run_days p engine).daily_solutions ∧
    ((run_days p engine).daily_solutions.map (fun s => s.total_markets_visited)).sum =
      (run_days p engine).total_markets_visited ∧
    (run_days p engine).total_markets_visited =
      p.markets.length - (run_days p engine).unvisited_markets.length := by
  have hc : ∀ d ex, (engine d ex).route.Nodup ∧ (∀ x ∈ (engine d ex).route, x ∉ ex) ∧
      (engine d ex).total_markets_visited = (engine d ex).route.length ∧
      (∀ x ∈ (engine d ex).route, ∃ m ∈ p.markets, m.id = x) := by
    intro d ex
    rcases heng d ex with h | h <;> rw [h]
    · obtain ⟨c1, c2, c3, c4⟩ := greedy_engine_contract g d ex
      exact ⟨c1, c2, c3, fun x hx => hg ▸ c4 x hx⟩
    · obtain ⟨c1, c2, c3, c4⟩ := aco_engine_contract a oracle d ex
      exact ⟨c1, c2, c3, fun x hx => ha ▸ c4 x hx⟩
  obtain ⟨i1, i2, i3, i4, i5⟩ := run_days_fold_inv p engine hc (List.range p.num_days)
    ([], []) List.nodup_nil (fun x hx => absurd hx (by simp)) rfl
    (fun s hs => absurd hs (by simp)) List.Pairwise.nil
  have hds : (run_days p engine).daily_solutions =
      ((List.range p.num_days).foldl (fun acc d =>
        (acc.1 ++ [engine (d + 1) acc.2],
         acc.2 ++ (engine (d + 1) acc.2).route)) ([], [])).1 := rfl
  have htot : (run_days p engine).total_markets_visited =
      (((List.range p.num_days).foldl (fun acc d =>
        (acc.1 ++ [engine (d + 1) acc.2],
         acc.2 ++ (engine (d + 1) acc.2).route)) ([], [])).1.map
          (fun s => s.total_markets_visited)).sum := rfl
  have hunv : (run_days p engine).unvisited_markets =
      (p.markets.filter (fun m => m.id ∉ ((List.range p.num_days).foldl (fun acc d =>
        (acc.1 ++ [engine (d + 1) acc.2],
         acc.2 ++ (engine (d + 1) acc.2).route)) ([], [])).2)).map Market.id := rfl
  refine ⟨hds ▸ i5, by rw [hds, htot], ?_⟩
  have hsub_ids : ∀ x ∈ ((List.range p.num_days).foldl (fun acc d =>
      (acc.1 ++ [engine (d + 1) acc.2],
       acc.2 ++ (engine (d + 1) acc.2).route)) ([], [])).2, x ∈ p.markets.map Market.id := by
    intro x hx
    obtain ⟨m, hm, hmx⟩ := i2 x hx
    exact List.mem_map.mpr ⟨m, hm, hmx⟩
  have hcount := countP_mem_of_nodup (p.markets.map Market.id) _ hids i1 hsub_ids
  have hcount2 : p.markets.countP (fun m =>
      decide (m.id ∈ ((List.range p.num_days).foldl (fun acc d =>
        (acc.1 ++ [engine (d + 1) acc.2],
         acc.2 ++ (engine (d + 1) acc.2).route)) ([], [])).2)) =
      ((List.range p.num_days).foldl (fun acc d =>
        (acc.1 ++ [engine (d + 1) acc.2],
         acc.2 ++ (engine (d + 1) acc.2).route)) ([], [])).2.length := by
    rw [← hcount, List.countP_map]
    rfl
  have hsplit := countP_mem_add_not_mem (fun m : Market =>
    m.id ∈ ((List.range p.num_days).foldl (fun acc d =>
      (acc.1 ++ [engine (d + 1) acc.2],
       acc.2 ++ (engine (d + 1) acc.2).route)) ([], [])).2) p.markets
  have hunv_len : (run_days p engine).unvisited_markets.length =
      p.markets.countP (fun m => decide (m.id ∉ ((List.range p.num_days).foldl (fun acc d =>
        (acc.1 ++ [engine (d + 1) acc.2],
         acc.2 ++ (engine (d + 1) acc.2).route)) ([], [])).2)) := by
    rw [hunv, List.length_map, ← List.countP_eq_length_filter]
  rw [htot, i3, hunv_len]
  omega

/-- Witness for C2: the greedy engine on the section-8 scenario (one day,
distinct ids); the total visited equals the market count minus the unvisited
count. -/
theorem C2_multi_day_exclusivity_witness :
    (scenario_problem.markets.map Market.id).Nodup ∧
    (run_days scenario_problem (fun d ex =>
        GreedyOptimizer.solve ⟨scenario_problem, "hybrid", 2/5, 3/5⟩ d ex)).total_markets_visited =
      scenario_problem.markets.length -
        (run_days scenario_problem (fun d ex =>
          GreedyOptimizer.solve ⟨scenario_problem, "hybrid", 2/5, 3/5⟩ d ex)).unvisited_markets.length :=
  ⟨by decide,
   (C2_multi_day_exclusivity scenario_problem
      (fun d ex => GreedyOptimizer.solve ⟨scenario_problem, "hybrid", 2/5, 3/5⟩ d ex)
      ⟨scenario_problem, "hybrid", 2/5, 3/5⟩
      ⟨scenario_problem, 1, 1, 1/2, 1, 1, true, 2⟩ (fun _ _ _ => 0)
      rfl rfl (fun d ex => Or.inl rfl) (by decide)).2.2⟩
